import Mathlib

/-!
Verification of the easytransfer core (in-memory file registry, rate limiter,
token service) against its natural-language specification.

The TypeScript source is shallowly embedded:
* JavaScript `Map` objects become association lists with in-place update
  (`mapSet`), matching `Map.set` (replace in insertion position, else append)
  and `Map.delete` (remove the unique entry with that key).
* JavaScript `Set` objects become duplicate-free lists (`setAdd`,
  `removeFirst`), matching `Set.add` (append if absent) and `Set.delete`.
* `Date.now()` timestamps become explicit `now : Nat` arguments (milliseconds).
* Environment-configured scalars (`SESSION_TIMEOUT`, `MAX_UPLOADS_PER_IP`,
  `RATE_LIMIT_WINDOW_MS`) become explicit parameters; their defaults
  (60000 ms, 3, 3600000 ms) are used in concrete witnesses.
* Functions that mutate module state return the new state explicitly;
  a `throw` becomes `Option`/a sentinel as noted at each definition.
-/

/-! ### Association-list model of JavaScript `Map`, list model of `Set` -/

/-- `Map.get k`: the value of the unique entry with key `k`, if any. -/
def lookupKey {α : Type} (k : String) : List (String × α) → Option α
  | [] => none
  | (k', v) :: t => if k' = k then some v else lookupKey k t

/-- `Map.set k v`: replace the entry in place if the key is present,
otherwise append a new entry (JavaScript `Map` insertion order). -/
def mapSet {α : Type} (k : String) (v : α) : List (String × α) → List (String × α)
  | [] => [(k, v)]
  | (k', v') :: t => if k' = k then (k, v) :: t else (k', v') :: mapSet k v t

/-- `Map.delete k`: remove the (first) entry with key `k`. -/
def eraseKey {α : Type} (k : String) : List (String × α) → List (String × α)
  | [] => []
  | (k', v') :: t => if k' = k then t else (k', v') :: eraseKey k t

/-- The keys of a map, in insertion order. -/
def keysOf {α : Type} (l : List (String × α)) : List String := l.map Prod.fst

/-- `Set.add x`: append `x` if it is not already a member. -/
def setAdd (l : List String) (x : String) : List String :=
  if x ∈ l then l else l ++ [x]

/-- `Set.delete x`: remove the (first) occurrence of `x`. -/
def removeFirst (x : String) : List String → List String
  | [] => []
  | y :: t => if y = x then t else y :: removeFirst x t

/-! ### Data model of `src/lib/storage.ts` -/

/-- `StoredFile` from `storage.ts`.  `Buffer` is modelled as a list of bytes;
`size` is set by `storeFile` to `data.length` exactly as in the source. -/
structure StoredFile where
  id : String
  code : String
  filename : String
  originalName : String
  mimeType : String
  size : Nat
  data : List Nat
  uploadedAt : Nat
  lastHeartbeat : Nat
  uploaderIp : String
  sessionId : String
deriving DecidableEq

/-- The three views of `GlobalStorage` that the registry operations touch
(`files`, `codeToFileId`, `sessionToFileIds`). -/
structure Storage where
  files : List (String × StoredFile)
  codeToFileId : List (String × String)
  sessionToFileIds : List (String × List String)
deriving DecidableEq

/-- `code.toUpperCase().trim()` from `getFileByCodeRaw`: ASCII upcasing then
stripping leading/trailing whitespace. -/
def normalizeCode (code : String) : String :=
  ⟨((code.data.map Char.toUpper).dropWhile Char.isWhitespace).reverse
      |>.dropWhile Char.isWhitespace |>.reverse⟩

/-- `storeFile` from `storage.ts`.  The generated `id`, the code produced by
`generateCode`, and `Date.now()` are passed in explicitly. -/
def storeFile (st : Storage) (id code filename originalName mimeType : String)
    (data : List Nat) (uploaderIp sessionId : String) (now : Nat) :
    StoredFile × Storage :=
  let file : StoredFile :=
    { id := id, code := code, filename := filename, originalName := originalName
      mimeType := mimeType, size := data.length, data := data, uploadedAt := now
      lastHeartbeat := now, uploaderIp := uploaderIp, sessionId := sessionId }
  let files := mapSet id file st.files
  let codeToFileId := mapSet code id st.codeToFileId
  -- `if (!has(sessionId)) set(sessionId, new Set())` then `get(sessionId)!.add(id)`
  let cur := (lookupKey sessionId st.sessionToFileIds).getD []
  let sessionToFileIds := mapSet sessionId (setAdd cur id) st.sessionToFileIds
  (file, { files := files, codeToFileId := codeToFileId,
           sessionToFileIds := sessionToFileIds })

/-- `getFileByCodeRaw` from `storage.ts`: normalize the code, look it up in
the by-code index, then fetch the file record. -/
def getFileByCodeRaw (st : Storage) (code : String) : Option StoredFile :=
  match lookupKey (normalizeCode code) st.codeToFileId with
  | none => none
  | some fileId =>
    match lookupKey fileId st.files with
    | none => none
    | some file => some file

/-- `deleteFile` from `storage.ts`: deindex from the by-code map, the file
map and the owning session's id set, dropping the session entry when the
set becomes empty. -/
def deleteFile (st : Storage) (fileId : String) : Bool × Storage :=
  match lookupKey fileId st.files with
  | none => (false, st)
  | some file =>
    let codeToFileId := eraseKey file.code st.codeToFileId
    let files := eraseKey fileId st.files
    let sessionToFileIds :=
      match lookupKey file.sessionId st.sessionToFileIds with
      | none => st.sessionToFileIds
      | some sessionFiles =>
        let sessionFiles := removeFirst fileId sessionFiles
        if sessionFiles.length = 0 then eraseKey file.sessionId st.sessionToFileIds
        else mapSet file.sessionId sessionFiles st.sessionToFileIds
    (true, { files := files, codeToFileId := codeToFileId,
             sessionToFileIds := sessionToFileIds })

/-- `getFileByCode` from `storage.ts`: resolve, then lazily delete and
return `null` when `now - lastHeartbeat` exceeds the session timeout
(`SESSION_TIMEOUT`, default 60000 ms, passed as `timeout`). -/
def getFileByCode (st : Storage) (code : String) (now timeout : Nat) :
    Option StoredFile × Storage :=
  match getFileByCodeRaw st code with
  | none => (none, st)
  | some file =>
    if now - file.lastHeartbeat > timeout then (none, (deleteFile st file.id).2)
    else (some file, st)

/-- The loop body of `updateHeartbeat`: for each owned file id still in
the file map, stamp `lastHeartbeat := now`. -/
def hbFold (fs : List (String × StoredFile)) (fileIds : List String)
    (now : Nat) : List (String × StoredFile) :=
  fileIds.foldl (fun fs fileId =>
    match lookupKey fileId fs with
    | some file => mapSet fileId { file with lastHeartbeat := now } fs
    | none => fs) fs

/-- `updateHeartbeat` from `storage.ts`: false when the session has no file
set (or an empty one); otherwise stamp `lastHeartbeat := now` on every owned
file that is still in the file map. -/
def updateHeartbeat (st : Storage) (sessionId : String) (now : Nat) :
    Bool × Storage :=
  match lookupKey sessionId st.sessionToFileIds with
  | none => (false, st)
  | some fileIds =>
    if fileIds.length = 0 then (false, st)
    else (true, { st with files := hbFold st.files fileIds now })

/-- The `deleteFile` loop of `deleteSession`, counting successful deletions
(the source iterates over a snapshot copy of the session's id set). -/
def delFold (st : Storage) (fileIds : List String) : Nat × Storage :=
  fileIds.foldl (fun acc fileId =>
    let d := deleteFile acc.2 fileId
    (if d.1 then acc.1 + 1 else acc.1, d.2)) (0, st)

/-- `deleteSession` from `storage.ts`: delete every file of the session
(iterating a snapshot of the id set), then drop the session entry. -/
def deleteSession (st : Storage) (sessionId : String) : Nat × Storage :=
  match lookupKey sessionId st.sessionToFileIds with
  | none => (0, st)
  | some fileIds =>
    let r := delFold st fileIds
    (r.1, { r.2 with sessionToFileIds := eraseKey sessionId r.2.sessionToFileIds })

/-- `getSessionFiles` from `storage.ts`. -/
def getSessionFiles (st : Storage) (sessionId : String) : List StoredFile :=
  ((lookupKey sessionId st.sessionToFileIds).getD []).filterMap
    (fun i => lookupKey i st.files)

/-- `cleanupExpiredSessions` from `storage.ts`: iterate a snapshot of the
file entries and delete every file whose heartbeat staleness exceeds the
timeout (the counter is incremented unconditionally, as in the source). -/
def cleanupExpiredSessions (st : Storage) (now timeout : Nat) : Nat × Storage :=
  st.files.foldl (fun (acc : Nat × Storage) e =>
    if now - e.2.lastHeartbeat > timeout then
      (acc.1 + 1, (deleteFile acc.2 e.1).2)
    else acc) (0, st)

/-! ### Data model of `src/lib/rateLimit.ts`

`MAX_UPLOADS_PER_IP` (default 3) and `RATE_LIMIT_WINDOW_MS` (default
3600000) are environment-configured and passed as `maxUploads` /
`windowMs`. -/

/-- `RateLimitEntry` from `rateLimit.ts`. -/
structure RateLimitEntry where
  count : Nat
  firstUploadAt : Nat
  uploads : List String
deriving DecidableEq

/-- The module-level `rateLimitStore` map. -/
abbrev RateLimitStore := List (String × RateLimitEntry)

/-- `RateLimitResult` from `rateLimit.ts` (`message` is optional). -/
structure RateLimitResult where
  allowed : Bool
  remaining : Nat
  resetAt : Nat
  message : Option String
deriving DecidableEq

/-- `checkRateLimit` from `rateLimit.ts`.  Note it is not purely read-only:
when the matched entry's window has expired it deletes that entry before
answering with a fresh window. -/
def checkRateLimit (store : RateLimitStore) (ip : String) (now maxUploads windowMs : Nat) :
    RateLimitResult × RateLimitStore :=
  match lookupKey ip store with
  | none =>
    ({ allowed := true, remaining := maxUploads, resetAt := now + windowMs,
       message := none }, store)
  | some entry =>
    if now - entry.firstUploadAt > windowMs then
      ({ allowed := true, remaining := maxUploads, resetAt := now + windowMs,
         message := none }, eraseKey ip store)
    else
      let remaining := maxUploads - entry.count
      if remaining > 0 then
        ({ allowed := true, remaining := remaining,
           resetAt := entry.firstUploadAt + windowMs, message := none }, store)
      else
        ({ allowed := false, remaining := 0,
           resetAt := entry.firstUploadAt + windowMs,
           message := some "Rate limit exceeded. Please try again later." }, store)

/-- `recordUpload` from `rateLimit.ts`. -/
def recordUpload (store : RateLimitStore) (ip code : String) (now windowMs : Nat) :
    RateLimitStore :=
  match lookupKey ip store with
  | none => mapSet ip { count := 1, firstUploadAt := now, uploads := [code] } store
  | some entry =>
    if now - entry.firstUploadAt > windowMs then
      mapSet ip { count := 1, firstUploadAt := now, uploads := [code] } store
    else
      mapSet ip { entry with count := entry.count + 1,
                             uploads := entry.uploads ++ [code] } store

/-- `removeUploadFromTracking` from `rateLimit.ts`: drop the code from the
entry's `uploads` array (first occurrence) but deliberately leave `count`
untouched. -/
def removeUploadFromTracking (store : RateLimitStore) (ip code : String) :
    RateLimitStore :=
  match lookupKey ip store with
  | none => store
  | some entry =>
    if code ∈ entry.uploads then
      mapSet ip { entry with uploads := removeFirst code entry.uploads } store
    else store

/-- A sequence of `recordUpload` calls for one IP: each element of `tcs` is
a `(Date.now(), code)` pair of one accepted upload. -/
def recordN (store : RateLimitStore) (ip : String) (tcs : List (Nat × String))
    (windowMs : Nat) : RateLimitStore :=
  tcs.foldl (fun s tc => recordUpload s ip tc.2 tc.1 windowMs) store

/-! ### Data model of `src/lib/jwt.ts`

`signToken`/`verifyToken` delegate the cryptography to the external
`jsonwebtoken` dependency (HMAC-SHA256).  The HMAC primitive is modelled
as an ideal (symbolic) MAC: a signature is the pair of the signing key and
the exact signed content, so a signature verifies iff it was produced with
the same key over the same content — the standard idealization of an
unforgeable, deterministic MAC.  `expiresIn: "1h"` makes `exp = iat + 3600`
(seconds); `jsonwebtoken` rejects a token once the clock reaches `exp`. -/

/-- `JWTPayload` from `jwt.ts`. -/
structure JWTPayload where
  code : String
  fileId : String
  fileName : String
  fileSize : Nat
  mimeType : String
  uploadedAt : Nat
deriving DecidableEq

/-- `VerifiedPayload` from `jwt.ts`: the payload plus the `iat`/`exp`
claims added on signing. -/
structure VerifiedPayload extends JWTPayload where
  iat : Nat
  exp : Nat
deriving DecidableEq

/-- The content a token's signature covers: protected header fields
(algorithm), registered claims (issuer, subject, iat, exp) and the payload. -/
structure JwtContent where
  alg : String
  issuer : String
  subject : String
  payload : JWTPayload
  iat : Nat
  exp : Nat
deriving DecidableEq

/-- A decoded token as `jsonwebtoken` sees it. -/
structure JwtToken where
  alg : String
  issuer : String
  subject : String
  payload : JWTPayload
  iat : Nat
  exp : Nat
  sig : String × JwtContent
deriving DecidableEq

/-- Ideal-MAC model of HMAC-SHA256: the tag determines (key, content). -/
def hmacHS256 (key : String) (content : JwtContent) : String × JwtContent :=
  (key, content)

/-- The content of a token, as recomputed by the verifier. -/
def tokenContent (t : JwtToken) : JwtContent :=
  { alg := t.alg, issuer := t.issuer, subject := t.subject,
    payload := t.payload, iat := t.iat, exp := t.exp }

/-- `signToken` from `jwt.ts`: HS256, issuer `easytransfer`, subject
`secure-file-access`, `expiresIn: "1h"`.  `nowSec` is the signing clock in
seconds. -/
def signToken (secret : String) (payload : JWTPayload) (nowSec : Nat) : JwtToken :=
  { alg := "HS256", issuer := "easytransfer", subject := "secure-file-access",
    payload := payload, iat := nowSec, exp := nowSec + 3600,
    sig := hmacHS256 secret
      { alg := "HS256", issuer := "easytransfer", subject := "secure-file-access",
        payload := payload, iat := nowSec, exp := nowSec + 3600 } }

/-- `verifyToken` from `jwt.ts`: signature, algorithm pin, issuer, subject
and expiry are all checked; any failure is collapsed to `none` (the source
catches every verification error and returns `null`). -/
def verifyToken (secret : String) (t : JwtToken) (nowSec : Nat) :
    Option VerifiedPayload :=
  if t.sig ≠ hmacHS256 secret (tokenContent t) then none
  else if t.alg ≠ "HS256" then none
  else if t.issuer ≠ "easytransfer" then none
  else if t.subject ≠ "secure-file-access" then none
  else if t.exp ≤ nowSec then none
  else some { toJWTPayload := t.payload, iat := t.iat, exp := t.exp }

/-! ### `generateCode` from `src/lib/storage.ts` -/

/-- The 32-symbol alphabet of `generateCode` (`O`, `0`, `I`, `1` removed). -/
def CODE_CHARS : List Char := "ABCDEFGHJKLMNPQRSTUVWXYZ23456789".data

/-- `chars.charAt(Math.floor(Math.random() * chars.length))`: one random
draw, reduced modulo the alphabet size. -/
def codeChar (r : Nat) : Char := CODE_CHARS.getD (r % 32) 'A'

/-- The candidate code built on loop iteration `k` (0-based) from the
random stream `rs`: four consecutive draws. -/
def candidate (rs : Nat → Nat) (k : Nat) : String :=
  ⟨[codeChar (rs (4 * k)), codeChar (rs (4 * k + 1)),
    codeChar (rs (4 * k + 2)), codeChar (rs (4 * k + 3))]⟩

/-- The do/while loop of `generateCode`: build a candidate, increment
`attempts`, throw (here: `none`) once `attempts >= 100`, otherwise retry
while the candidate collides with the live by-code index.  The `fuel`
argument only bounds the recursion; 100 units are always enough because
the attempts check fires first. -/
def generateCodeAux (st : Storage) (rs : Nat → Nat) : Nat → Nat → Option String
  | _, 0 => none
  | attempts, fuel + 1 =>
    let code := candidate rs attempts
    let attempts' := attempts + 1
    if attempts' ≥ 100 then none
    else if (lookupKey code st.codeToFileId).isSome then
      generateCodeAux st rs attempts' fuel
    else some code

/-- `generateCode` from `storage.ts`; `none` models
`throw new Error("Unable to generate unique code")`. -/
def generateCode (st : Storage) (rs : Nat → Nat) : Option String :=
  generateCodeAux st rs 0 100

/-! ### Concrete states used to instantiate the theorems -/

/-- A demonstration stored file. -/
def demoFile : StoredFile :=
  { id := "f1", code := "AB2C", filename := "doc.txt", originalName := "doc.txt"
    mimeType := "text/plain", size := 3, data := [104, 105, 33], uploadedAt := 1000
    lastHeartbeat := 1000, uploaderIp := "1.2.3.4", sessionId := "sessA" }

/-- A registry holding exactly `demoFile`. -/
def demoSt : Storage :=
  { files := [("f1", demoFile)], codeToFileId := [("AB2C", "f1")],
    sessionToFileIds := [("sessA", ["f1"])] }

/-- A capacity-cap demonstration file owned by session `i`. -/
def capFile (i : Nat) : StoredFile :=
  { id := s!"f{i}", code := s!"C{i}", filename := "a", originalName := "a"
    mimeType := "t", size := 0, data := [], uploadedAt := 0
    lastHeartbeat := 0, uploaderIp := "ip", sessionId := s!"s{i}" }

/-- A registry state with exactly 30 distinct live sessions — the default
`MAX_CONCURRENT_SESSIONS` cap of the repository's routes. -/
def cap30St : Storage :=
  { files := (List.range 30).map (fun i => (s!"f{i}", capFile i)),
    codeToFileId := (List.range 30).map (fun i => (s!"C{i}", s!"f{i}")),
    sessionToFileIds := (List.range 30).map (fun i => (s!"s{i}", [s!"f{i}"])) }

/-- A demonstration JWT payload. -/
def pDemo : JWTPayload :=
  { code := "AB2C", fileId := "f1", fileName := "doc.txt", fileSize := 3,
    mimeType := "text/plain", uploadedAt := 1000 }

/-- A registry whose entire zero-randomness candidate stream collides. -/
def stW : Storage :=
  { files := [], codeToFileId := [("AAAA", "f1")], sessionToFileIds := [] }

/-! ### Lemmas about the map and set model -/

theorem lookupKey_eq_none {α : Type} {k : String} {l : List (String × α)} :
    lookupKey k l = none ↔ k ∉ keysOf l := by
  induction l with
  | nil => simp [lookupKey, keysOf]
  | cons p t ih =>
    obtain ⟨k', v⟩ := p
    simp only [lookupKey, keysOf, List.map_cons, List.mem_cons]
    by_cases h : k' = k
    · subst h; simp
    · simp only [if_neg h]
      constructor
      · intro hnone hmem
        rcases hmem with h1 | h1
        · exact h h1.symm
        · exact (ih.1 hnone) (by simpa [keysOf] using h1)
      · intro hmem
        exact ih.2 (by intro h1; exact hmem (Or.inr (by simpa [keysOf] using h1)))

theorem lookupKey_mem {α : Type} {k : String} {v : α} {l : List (String × α)}
    (h : lookupKey k l = some v) : (k, v) ∈ l := by
  induction l with
  | nil => simp [lookupKey] at h
  | cons p t ih =>
    obtain ⟨k', v'⟩ := p
    by_cases hk : k' = k
    · subst hk
      simp [lookupKey] at h
      simp [h]
    · simp only [lookupKey, if_neg hk] at h
      exact List.mem_cons_of_mem _ (ih h)

theorem lookupKey_isSome {α : Type} {k : String} {l : List (String × α)} :
    (lookupKey k l).isSome ↔ k ∈ keysOf l := by
  cases hl : lookupKey k l with
  | none =>
    simp only [Option.isSome_none, Bool.false_eq_true, false_iff]
    exact lookupKey_eq_none.1 hl
  | some v =>
    simp only [Option.isSome_some, true_iff]
    simpa [keysOf] using List.mem_map_of_mem Prod.fst (lookupKey_mem hl)

theorem mem_lookupKey {α : Type} {k : String} {v : α} {l : List (String × α)}
    (hnd : (keysOf l).Nodup) (h : (k, v) ∈ l) : lookupKey k l = some v := by
  induction l with
  | nil => simp at h
  | cons p t ih =>
    obtain ⟨k', v'⟩ := p
    simp only [keysOf, List.map_cons, List.nodup_cons] at hnd
    rcases List.mem_cons.1 h with h1 | h1
    · rw [Prod.mk.injEq] at h1
      obtain ⟨rfl, rfl⟩ := h1
      simp [lookupKey]
    · have hk : k' ≠ k := fun he =>
        (he ▸ hnd.1) (by simpa using List.mem_map_of_mem Prod.fst h1)
      simp only [lookupKey, if_neg hk]
      exact ih hnd.2 h1

theorem lookupKey_mapSet_self {α : Type} {k : String} {v : α} {l : List (String × α)} :
    lookupKey k (mapSet k v l) = some v := by
  induction l with
  | nil => simp [mapSet, lookupKey]
  | cons p t ih =>
    obtain ⟨k', v'⟩ := p
    by_cases h : k' = k
    · subst h; simp [mapSet, lookupKey]
    · simp [mapSet, lookupKey, h, ih]

theorem lookupKey_mapSet_ne {α : Type} {k k' : String} {v : α} {l : List (String × α)}
    (h : k' ≠ k) : lookupKey k' (mapSet k v l) = lookupKey k' l := by
  induction l with
  | nil => simp [mapSet, lookupKey, Ne.symm h]
  | cons p t ih =>
    obtain ⟨k₀, v₀⟩ := p
    by_cases h0 : k₀ = k
    · subst h0
      simp [mapSet, lookupKey, Ne.symm h]
    · simp only [mapSet, if_neg h0, lookupKey]
      by_cases h1 : k₀ = k'
      · simp [h1]
      · simp [h1, ih]

theorem keysOf_mapSet {α : Type} (k : String) (v : α) (l : List (String × α)) :
    keysOf (mapSet k v l) = if k ∈ keysOf l then keysOf l else keysOf l ++ [k] := by
  induction l with
  | nil => simp [mapSet, keysOf]
  | cons p t ih =>
    obtain ⟨k', v'⟩ := p
    by_cases h : k' = k
    · subst h; simp [mapSet, keysOf]
    · simp only [mapSet, if_neg h, keysOf, List.map_cons] at ih ⊢
      rw [ih]
      by_cases hm : k ∈ List.map Prod.fst t
      · simp [hm, Ne.symm h]
      · simp [hm, Ne.symm h]

theorem nodup_keysOf_mapSet {α : Type} {k : String} {v : α} {l : List (String × α)}
    (h : (keysOf l).Nodup) : (keysOf (mapSet k v l)).Nodup := by
  rw [keysOf_mapSet]
  by_cases hm : k ∈ keysOf l
  · simpa [hm] using h
  · simp only [if_neg hm]
    refine List.Nodup.append h (List.nodup_singleton k) ?_
    intro a ha hak
    rw [List.mem_singleton] at hak
    exact hm (hak ▸ ha)

theorem mem_mapSet {α : Type} {p : String × α} {k : String} {v : α}
    {l : List (String × α)} (hnd : (keysOf l).Nodup) (h : p ∈ mapSet k v l) :
    p = (k, v) ∨ (p ∈ l ∧ p.1 ≠ k) := by
  induction l with
  | nil => simp [mapSet] at h; simp [h]
  | cons q t ih =>
    obtain ⟨k', v'⟩ := q
    simp only [keysOf, List.map_cons, List.nodup_cons] at hnd
    by_cases hk : k' = k
    · subst hk
      simp only [mapSet, if_pos rfl] at h
      rcases List.mem_cons.1 h with h1 | h1
      · exact Or.inl h1
      · right
        refine ⟨List.mem_cons_of_mem _ h1, ?_⟩
        intro hpk
        exact hnd.1 (hpk ▸ List.mem_map_of_mem Prod.fst h1)
    · simp only [mapSet, if_neg hk] at h
      rcases List.mem_cons.1 h with h1 | h1
      · subst h1; exact Or.inr ⟨List.mem_cons_self _ _, hk⟩
      · rcases ih hnd.2 h1 with h2 | h2
        · exact Or.inl h2
        · exact Or.inr ⟨List.mem_cons_of_mem _ h2.1, h2.2⟩

theorem eraseKey_sublist {α : Type} (k : String) (l : List (String × α)) :
    (eraseKey k l).Sublist l := by
  induction l with
  | nil => simp [eraseKey]
  | cons p t ih =>
    obtain ⟨k', v'⟩ := p
    by_cases h : k' = k
    · simp only [eraseKey, if_pos h]
      exact (List.sublist_cons_self _ _)
    · simp only [eraseKey, if_neg h]
      exact ih.cons₂ _

theorem mem_eraseKey {α : Type} {p : String × α} {k : String} {l : List (String × α)}
    (h : p ∈ eraseKey k l) : p ∈ l := (eraseKey_sublist k l).mem h

theorem keysOf_eraseKey_sublist {α : Type} (k : String) (l : List (String × α)) :
    (keysOf (eraseKey k l)).Sublist (keysOf l) := (eraseKey_sublist k l).map Prod.fst

theorem nodup_keysOf_eraseKey {α : Type} {k : String} {l : List (String × α)}
    (h : (keysOf l).Nodup) : (keysOf (eraseKey k l)).Nodup :=
  h.sublist (keysOf_eraseKey_sublist k l)

theorem lookupKey_eraseKey_self {α : Type} {k : String} {l : List (String × α)}
    (hnd : (keysOf l).Nodup) : lookupKey k (eraseKey k l) = none := by
  induction l with
  | nil => simp [eraseKey, lookupKey]
  | cons p t ih =>
    obtain ⟨k', v'⟩ := p
    simp only [keysOf, List.map_cons, List.nodup_cons] at hnd
    by_cases h : k' = k
    · subst h
      simp only [eraseKey, if_pos rfl]
      rw [lookupKey_eq_none]
      exact hnd.1
    · simp only [eraseKey, if_neg h, lookupKey, if_neg h]
      exact ih hnd.2

theorem lookupKey_eraseKey_ne {α : Type} {k k' : String} {l : List (String × α)}
    (h : k' ≠ k) : lookupKey k' (eraseKey k l) = lookupKey k' l := by
  induction l with
  | nil => simp [eraseKey]
  | cons p t ih =>
    obtain ⟨k₀, v₀⟩ := p
    by_cases h0 : k₀ = k
    · simp [eraseKey, lookupKey, h0, Ne.symm h]
    · simp only [eraseKey, if_neg h0, lookupKey]
      by_cases h1 : k₀ = k'
      · simp [h1]
      · simp [h1, ih]

theorem mem_eraseKey_iff {α : Type} {p : String × α} {k : String}
    {l : List (String × α)} (hnd : (keysOf l).Nodup) :
    p ∈ eraseKey k l ↔ p ∈ l ∧ p.1 ≠ k := by
  constructor
  · intro h
    refine ⟨mem_eraseKey h, ?_⟩
    obtain ⟨a, b⟩ := p
    intro hpk
    simp only at hpk
    subst hpk
    have h1 : lookupKey a (eraseKey a l) = some b :=
      mem_lookupKey (nodup_keysOf_eraseKey hnd) h
    rw [lookupKey_eraseKey_self hnd] at h1
    exact Option.noConfusion h1
  · rintro ⟨hm, hne⟩
    induction l with
    | nil => simp at hm
    | cons q t ih =>
      obtain ⟨k₀, v₀⟩ := q
      simp only [keysOf, List.map_cons, List.nodup_cons] at hnd
      by_cases h0 : k₀ = k
      · subst h0
        simp only [eraseKey, if_pos rfl]
        rcases List.mem_cons.1 hm with h1 | h1
        · exact absurd (congrArg Prod.fst h1) hne
        · exact h1
      · simp only [eraseKey, if_neg h0]
        rcases List.mem_cons.1 hm with h1 | h1
        · exact h1 ▸ List.mem_cons_self _ _
        · exact List.mem_cons_of_mem _ (ih hnd.2 h1)

theorem eraseKey_of_not_mem {α : Type} {k : String} {l : List (String × α)}
    (h : k ∉ keysOf l) : eraseKey k l = l := by
  induction l with
  | nil => simp [eraseKey]
  | cons p t ih =>
    obtain ⟨k', v'⟩ := p
    simp only [keysOf, List.map_cons, List.mem_cons] at h
    push_neg at h
    simp only [eraseKey, if_neg (Ne.symm h.1)]
    rw [ih (by simpa [keysOf] using h.2)]

theorem mem_setAdd {l : List String} {x y : String} :
    x ∈ setAdd l y ↔ x ∈ l ∨ x = y := by
  unfold setAdd
  by_cases h : y ∈ l
  · simp only [if_pos h]
    constructor
    · exact Or.inl
    · rintro (h1 | rfl)
      · exact h1
      · exact h
  · simp [if_neg h]

theorem self_mem_setAdd (l : List String) (y : String) : y ∈ setAdd l y :=
  mem_setAdd.2 (Or.inr rfl)

theorem nodup_setAdd {l : List String} {y : String} (h : l.Nodup) :
    (setAdd l y).Nodup := by
  unfold setAdd
  by_cases hm : y ∈ l
  · simpa [hm] using h
  · simp only [if_neg hm]
    refine List.Nodup.append h (List.nodup_singleton y) ?_
    intro a ha hay
    rw [List.mem_singleton] at hay
    exact hm (hay ▸ ha)

theorem setAdd_ne_nil (l : List String) (y : String) : setAdd l y ≠ [] := by
  intro h
  have hy := self_mem_setAdd l y
  rw [h] at hy
  simp at hy

theorem removeFirst_sublist (x : String) (l : List String) :
    (removeFirst x l).Sublist l := by
  induction l with
  | nil => simp [removeFirst]
  | cons y t ih =>
    by_cases h : y = x
    · simp only [removeFirst, if_pos h]
      exact List.sublist_cons_self _ _
    · simp only [removeFirst, if_neg h]
      exact ih.cons₂ _

theorem mem_removeFirst {x y : String} {l : List String}
    (h : y ∈ removeFirst x l) : y ∈ l := (removeFirst_sublist x l).mem h

theorem nodup_removeFirst {x : String} {l : List String} (h : l.Nodup) :
    (removeFirst x l).Nodup := h.sublist (removeFirst_sublist x l)

theorem mem_removeFirst_of_ne {x y : String} {l : List String}
    (hm : y ∈ l) (hne : y ≠ x) : y ∈ removeFirst x l := by
  induction l with
  | nil => simp at hm
  | cons z t ih =>
    by_cases h : z = x
    · simp only [removeFirst, if_pos h]
      rcases List.mem_cons.1 hm with h1 | h1
      · exact absurd (h ▸ h1) hne
      · exact h1
    · simp only [removeFirst, if_neg h]
      rcases List.mem_cons.1 hm with h1 | h1
      · exact h1 ▸ List.mem_cons_self _ _
      · exact List.mem_cons_of_mem _ (ih h1)

theorem not_mem_removeFirst {x : String} {l : List String} (h : l.Nodup) :
    x ∉ removeFirst x l := by
  induction l with
  | nil => simp [removeFirst]
  | cons y t ih =>
    rw [List.nodup_cons] at h
    by_cases hy : y = x
    · subst hy
      simp only [removeFirst, if_pos rfl]
      exact h.1
    · simp only [removeFirst, if_neg hy, List.mem_cons]
      push_neg
      exact ⟨fun he => hy he.symm, ih h.2⟩

/-! ### The consistency invariant of the three registry views

This is the property claimed for the registry: the file map, by-code index
and by-session index are three views of one logical state. -/

/-- Consistency of the three registry views:
* keys of all three maps are duplicate-free;
* each file record carries its own map key as `id`;
* the by-code index and the `code` fields are mutually inverse, so every
  indexed code resolves to exactly one live file whose `code` equals it;
* every session entry is a non-empty, duplicate-free set of ids of live
  files owned by that session, and every live file is registered in its
  own session's entry. -/
structure RegistryInv (st : Storage) : Prop where
  filesNodup : (keysOf st.files).Nodup
  codesNodup : (keysOf st.codeToFileId).Nodup
  sessNodup : (keysOf st.sessionToFileIds).Nodup
  idEq : ∀ p ∈ st.files, p.2.id = p.1
  fileCode : ∀ p ∈ st.files, lookupKey p.2.code st.codeToFileId = some p.1
  codeFile : ∀ p ∈ st.codeToFileId,
    (lookupKey p.2 st.files).map StoredFile.code = some p.1
  sessNonempty : ∀ p ∈ st.sessionToFileIds, p.2 ≠ []
  sessIdsNodup : ∀ p ∈ st.sessionToFileIds, p.2.Nodup
  sessOwner : ∀ p ∈ st.sessionToFileIds, ∀ i ∈ p.2,
    (lookupKey i st.files).map StoredFile.sessionId = some p.1
  fileSess : ∀ p ∈ st.files,
    p.1 ∈ (lookupKey p.2.sessionId st.sessionToFileIds).getD []

theorem getD_mem_cases {l? : Option (List String)} {x : String}
    (h : x ∈ l?.getD []) : ∃ ids, l? = some ids ∧ x ∈ ids := by
  cases l? with
  | none => simp at h
  | some ids => exact ⟨ids, rfl, by simpa using h⟩

/-- Under the invariant, two live files with the same code are the same
entry: no two simultaneously live objects share a code. -/
theorem RegistryInv.code_unique {st : Storage} (hI : RegistryInv st)
    {p q : String × StoredFile} (hp : p ∈ st.files) (hq : q ∈ st.files)
    (hc : p.2.code = q.2.code) : p = q := by
  have h1 := hI.fileCode p hp
  have h2 := hI.fileCode q hq
  rw [hc] at h1
  rw [h1] at h2
  have hk : p.1 = q.1 := Option.some.inj h2
  have hv := mem_lookupKey hI.filesNodup hp
  have hv' := mem_lookupKey hI.filesNodup hq
  rw [hk] at hv
  rw [hv] at hv'
  exact Prod.ext hk (Option.some.inj hv')

theorem deleteFile_eq_none {st : Storage} {fid : String}
    (hf : lookupKey fid st.files = none) : deleteFile st fid = (false, st) := by
  simp [deleteFile, hf]

theorem deleteFile_eq_some {st : Storage} {fid : String} {f : StoredFile}
    (hf : lookupKey fid st.files = some f) :
    deleteFile st fid = (true,
      { files := eraseKey fid st.files,
        codeToFileId := eraseKey f.code st.codeToFileId,
        sessionToFileIds :=
          match lookupKey f.sessionId st.sessionToFileIds with
          | none => st.sessionToFileIds
          | some sessionFiles =>
            if (removeFirst fid sessionFiles).length = 0 then
              eraseKey f.sessionId st.sessionToFileIds
            else mapSet f.sessionId (removeFirst fid sessionFiles)
              st.sessionToFileIds }) := by
  simp only [deleteFile, hf]

theorem deleteFile_inv {st : Storage} (hI : RegistryInv st) (fid : String) :
    RegistryInv (deleteFile st fid).2 := by
  cases hf : lookupKey fid st.files with
  | none => rw [deleteFile_eq_none hf]; exact hI
  | some f =>
    have hmemf : (fid, f) ∈ st.files := lookupKey_mem hf
    have hcode : lookupKey f.code st.codeToFileId = some fid := hI.fileCode _ hmemf
    obtain ⟨ids, hids, hfidmem⟩ := getD_mem_cases (hI.fileSess _ hmemf)
    have hidsmem : (f.sessionId, ids) ∈ st.sessionToFileIds := lookupKey_mem hids
    have hidsnd : ids.Nodup := hI.sessIdsNodup _ hidsmem
    rw [deleteFile_eq_some hf]
    simp only [hids]
    have hCfiles : ∀ p ∈ eraseKey fid st.files, p ∈ st.files ∧ p.1 ≠ fid :=
      fun p hp => (mem_eraseKey_iff hI.filesNodup).1 hp
    have hEcode : ∀ p ∈ eraseKey fid st.files, p.2.code ≠ f.code := by
      intro p hp hpc
      obtain ⟨hpf, hpne⟩ := hCfiles p hp
      have h1 := hI.fileCode p hpf
      rw [hpc, hcode] at h1
      exact hpne (Option.some.inj h1).symm
    have hCcodes : ∀ p ∈ eraseKey f.code st.codeToFileId,
        p ∈ st.codeToFileId ∧ p.1 ≠ f.code :=
      fun p hp => (mem_eraseKey_iff hI.codesNodup).1 hp
    have hGcodes : ∀ p ∈ eraseKey f.code st.codeToFileId, p.2 ≠ fid := by
      intro p hp hpf
      obtain ⟨hpc, hpne⟩ := hCcodes p hp
      have h1 := hI.codeFile p hpc
      rw [hpf, hf] at h1
      simp only [Option.map_some'] at h1
      exact hpne (Option.some.inj h1).symm
    by_cases hlen : (removeFirst fid ids).length = 0
    · simp only [if_pos hlen]
      have hids_nil : removeFirst fid ids = [] := List.length_eq_zero.1 hlen
      refine ⟨nodup_keysOf_eraseKey hI.filesNodup,
              nodup_keysOf_eraseKey hI.codesNodup,
              nodup_keysOf_eraseKey hI.sessNodup, ?_, ?_, ?_, ?_, ?_, ?_, ?_⟩
      · exact fun p hp => hI.idEq p (hCfiles p hp).1
      · intro p hp
        rw [lookupKey_eraseKey_ne (hEcode p hp)]
        exact hI.fileCode p (hCfiles p hp).1
      · intro p hp
        rw [lookupKey_eraseKey_ne (hGcodes p hp)]
        exact hI.codeFile p (hCcodes p hp).1
      · exact fun p hp => hI.sessNonempty p (mem_eraseKey hp)
      · exact fun p hp => hI.sessIdsNodup p (mem_eraseKey hp)
      · intro p hp i hi
        obtain ⟨hpm, hpne⟩ := (mem_eraseKey_iff hI.sessNodup).1 hp
        have hio := hI.sessOwner p hpm i hi
        have hine : i ≠ fid := by
          intro hif
          rw [hif, hf] at hio
          simp only [Option.map_some'] at hio
          exact hpne (Option.some.inj hio).symm
        rw [lookupKey_eraseKey_ne hine]
        exact hio
      · intro p hp
        obtain ⟨hpf, hpne⟩ := hCfiles p hp
        have hfs := hI.fileSess p hpf
        by_cases hps : p.2.sessionId = f.sessionId
        · exfalso
          rw [hps, hids] at hfs
          simp only [Option.getD_some] at hfs
          have hmem' : p.1 ∈ removeFirst fid ids := mem_removeFirst_of_ne hfs hpne
          rw [hids_nil] at hmem'
          simp at hmem'
        · rw [lookupKey_eraseKey_ne hps]
          exact hfs
    · simp only [if_neg hlen]
      refine ⟨nodup_keysOf_eraseKey hI.filesNodup,
              nodup_keysOf_eraseKey hI.codesNodup,
              nodup_keysOf_mapSet hI.sessNodup, ?_, ?_, ?_, ?_, ?_, ?_, ?_⟩
      · exact fun p hp => hI.idEq p (hCfiles p hp).1
      · intro p hp
        rw [lookupKey_eraseKey_ne (hEcode p hp)]
        exact hI.fileCode p (hCfiles p hp).1
      · intro p hp
        rw [lookupKey_eraseKey_ne (hGcodes p hp)]
        exact hI.codeFile p (hCcodes p hp).1
      · intro p hp
        rcases mem_mapSet hI.sessNodup hp with h | ⟨hpm, _⟩
        · rw [h]
          intro hn
          exact hlen (by rw [show removeFirst fid ids = [] from hn]; rfl)
        · exact hI.sessNonempty p hpm
      · intro p hp
        rcases mem_mapSet hI.sessNodup hp with h | ⟨hpm, _⟩
        · rw [h]
          exact nodup_removeFirst hidsnd
        · exact hI.sessIdsNodup p hpm
      · intro p hp i hi
        rcases mem_mapSet hI.sessNodup hp with h | ⟨hpm, hpne⟩
        · rw [h] at hi ⊢
          have hiids : i ∈ ids := mem_removeFirst hi
          have hine : i ≠ fid := by
            intro hif
            rw [hif] at hi
            exact not_mem_removeFirst hidsnd hi
          rw [lookupKey_eraseKey_ne hine]
          exact hI.sessOwner _ hidsmem i hiids
        · have hio := hI.sessOwner p hpm i hi
          have hine : i ≠ fid := by
            intro hif
            rw [hif, hf] at hio
            simp only [Option.map_some'] at hio
            exact hpne (Option.some.inj hio).symm
          rw [lookupKey_eraseKey_ne hine]
          exact hio
      · intro p hp
        obtain ⟨hpf, hpne⟩ := hCfiles p hp
        have hfs := hI.fileSess p hpf
        by_cases hps : p.2.sessionId = f.sessionId
        · rw [hps, hids] at hfs
          simp only [Option.getD_some] at hfs
          have hmem' : p.1 ∈ removeFirst fid ids := mem_removeFirst_of_ne hfs hpne
          rw [hps, lookupKey_mapSet_self]
          simpa using hmem'
        · rw [lookupKey_mapSet_ne hps]
          exact hfs

theorem deleteFile_files_lookup {st : Storage} (hnd : (keysOf st.files).Nodup)
    (fid k : String) :
    lookupKey k (deleteFile st fid).2.files =
      if k = fid then none else lookupKey k st.files := by
  cases hf : lookupKey fid st.files with
  | none =>
    rw [deleteFile_eq_none hf]
    by_cases h : k = fid
    · subst h; simp [hf]
    · simp [h]
  | some f =>
    rw [deleteFile_eq_some hf]
    by_cases h : k = fid
    · subst h
      simp only [if_pos rfl]
      exact lookupKey_eraseKey_self hnd
    · simp only [if_neg h]
      exact lookupKey_eraseKey_ne h

theorem deleteFile_code_lookup_none {st : Storage} {c : String} (fid : String)
    (hc : lookupKey c st.codeToFileId = none) :
    lookupKey c (deleteFile st fid).2.codeToFileId = none := by
  cases hf : lookupKey fid st.files with
  | none => rw [deleteFile_eq_none hf]; exact hc
  | some f =>
    rw [deleteFile_eq_some hf]
    apply lookupKey_eq_none.2
    intro hmem
    exact (lookupKey_eq_none.1 hc) ((keysOf_eraseKey_sublist _ _).subset hmem)

theorem deleteFile_code_lookup_some {st : Storage} (hI : RegistryInv st)
    (fid : String) {c fid' : String}
    (hc : lookupKey c st.codeToFileId = some fid') :
    lookupKey c (deleteFile st fid).2.codeToFileId =
      if fid' = fid then none else some fid' := by
  cases hf : lookupKey fid st.files with
  | none =>
    rw [deleteFile_eq_none hf]
    have h1 := hI.codeFile _ (lookupKey_mem hc)
    by_cases h : fid' = fid
    · exfalso
      rw [show lookupKey (c, fid').2 st.files = none from h ▸ hf] at h1
      simp at h1
    · simp [h, hc]
  | some f =>
    rw [deleteFile_eq_some hf]
    by_cases h : fid' = fid
    · subst h
      have h1 := hI.codeFile _ (lookupKey_mem hc)
      rw [show lookupKey (c, fid').2 st.files = some f from hf] at h1
      simp only [Option.map_some'] at h1
      have hcf : c = f.code := (Option.some.inj h1).symm
      rw [if_pos rfl, hcf]
      exact lookupKey_eraseKey_self hI.codesNodup
    · have hcodef : lookupKey f.code st.codeToFileId = some fid :=
        hI.fileCode _ (lookupKey_mem hf)
      have hcne : c ≠ f.code := by
        intro he
        rw [he, hcodef] at hc
        exact h (Option.some.inj hc).symm
      rw [if_neg h, lookupKey_eraseKey_ne hcne]
      exact hc

theorem deleteFile_sess_not_mem {st : Storage} (hI : RegistryInv st)
    {fid s : String} {ids' : List String}
    (h : lookupKey s (deleteFile st fid).2.sessionToFileIds = some ids') :
    fid ∉ ids' := by
  cases hf : lookupKey fid st.files with
  | none =>
    rw [deleteFile_eq_none hf] at h
    intro hmem
    have h1 := hI.sessOwner _ (lookupKey_mem h) fid hmem
    rw [show lookupKey fid st.files = none from hf] at h1
    simp at h1
  | some f =>
    have hmemf : (fid, f) ∈ st.files := lookupKey_mem hf
    obtain ⟨ids, hids, hfidmem⟩ := getD_mem_cases (hI.fileSess _ hmemf)
    have hidsnd : ids.Nodup := hI.sessIdsNodup _ (lookupKey_mem hids)
    rw [deleteFile_eq_some hf] at h
    simp only [hids] at h
    by_cases hlen : (removeFirst fid ids).length = 0
    · rw [if_pos hlen] at h
      intro hmem
      obtain ⟨hsm, hsne⟩ := (mem_eraseKey_iff hI.sessNodup).1 (lookupKey_mem h)
      have h1 := hI.sessOwner _ hsm fid hmem
      rw [show lookupKey fid st.files = some f from hf] at h1
      simp only [Option.map_some'] at h1
      exact hsne (Option.some.inj h1).symm
    · rw [if_neg hlen] at h
      by_cases hs : s = f.sessionId
      · subst hs
        rw [lookupKey_mapSet_self] at h
        rw [← Option.some.inj h]
        exact not_mem_removeFirst hidsnd
      · rw [lookupKey_mapSet_ne hs] at h
        intro hmem
        have h1 := hI.sessOwner _ (lookupKey_mem h) fid hmem
        rw [show lookupKey fid st.files = some f from hf] at h1
        simp only [Option.map_some'] at h1
        exact hs ((Option.some.inj h1).symm ▸ rfl)

theorem hbFold_lookup (ids : List String) (fs : List (String × StoredFile))
    (now : Nat) (k : String) :
    lookupKey k (hbFold fs ids now) =
      match lookupKey k fs with
      | none => none
      | some f => some (if k ∈ ids then { f with lastHeartbeat := now } else f) := by
  induction ids generalizing fs with
  | nil =>
    cases h : lookupKey k fs with
    | none => simp [hbFold, h]
    | some f => simp [hbFold, h]
  | cons i rest ih =>
    rw [show hbFold fs (i :: rest) now =
      hbFold (match lookupKey i fs with
        | some file => mapSet i { file with lastHeartbeat := now } fs
        | none => fs) rest now from rfl]
    cases hik : lookupKey i fs with
    | none =>
      rw [ih]
      by_cases hk : k = i
      · subst hk
        rw [hik]
      · cases hkf : lookupKey k fs with
        | none => rfl
        | some fk => simp [hk]
    | some fi =>
      rw [ih]
      by_cases hk : k = i
      · subst hk
        rw [lookupKey_mapSet_self, hik]
        simp
      · rw [lookupKey_mapSet_ne hk]
        cases hkf : lookupKey k fs with
        | none => rfl
        | some fk => simp [hk]

theorem hbFold_keys (ids : List String) (fs : List (String × StoredFile))
    (now : Nat) : keysOf (hbFold fs ids now) = keysOf fs := by
  induction ids generalizing fs with
  | nil => rfl
  | cons i rest ih =>
    rw [show hbFold fs (i :: rest) now =
      hbFold (match lookupKey i fs with
        | some file => mapSet i { file with lastHeartbeat := now } fs
        | none => fs) rest now from rfl]
    cases hik : lookupKey i fs with
    | none => rw [ih]
    | some fi =>
      rw [ih, keysOf_mapSet]
      have : i ∈ keysOf fs := lookupKey_isSome.1 (by rw [hik]; rfl)
      rw [if_pos this]

theorem hbFold_mem {k : String} {v : StoredFile} {fs : List (String × StoredFile)}
    {ids : List String} {now : Nat} (hnd : (keysOf fs).Nodup) :
    (k, v) ∈ hbFold fs ids now ↔
      ∃ f0, (k, f0) ∈ fs ∧
        v = if k ∈ ids then { f0 with lastHeartbeat := now } else f0 := by
  have hnd' : (keysOf (hbFold fs ids now)).Nodup := by rw [hbFold_keys]; exact hnd
  constructor
  · intro h
    have hl := mem_lookupKey hnd' h
    rw [hbFold_lookup] at hl
    cases hkf : lookupKey k fs with
    | none => rw [hkf] at hl; exact Option.noConfusion hl
    | some f0 =>
      rw [hkf] at hl
      exact ⟨f0, lookupKey_mem hkf, (Option.some.inj hl).symm⟩
  · rintro ⟨f0, hm, rfl⟩
    apply lookupKey_mem
    rw [hbFold_lookup, mem_lookupKey hnd hm]

theorem updateHeartbeat_none {st : Storage} {s : String} {now : Nat}
    (hs : lookupKey s st.sessionToFileIds = none) :
    updateHeartbeat st s now = (false, st) := by
  simp [updateHeartbeat, hs]

theorem updateHeartbeat_some {st : Storage} {s : String} (now : Nat)
    {ids : List String} (hs : lookupKey s st.sessionToFileIds = some ids)
    (hne : ids ≠ []) :
    updateHeartbeat st s now =
      (true, { st with files := hbFold st.files ids now }) := by
  simp only [updateHeartbeat, hs,
    if_neg (fun h => hne (List.length_eq_zero.1 h))]

theorem updateHeartbeat_inv {st : Storage} (hI : RegistryInv st)
    (s : String) (now : Nat) : RegistryInv (updateHeartbeat st s now).2 := by
  cases hs : lookupKey s st.sessionToFileIds with
  | none => rw [updateHeartbeat_none hs]; exact hI
  | some ids =>
    by_cases hlen : ids.length = 0
    · simp only [updateHeartbeat, hs, if_pos hlen]
      exact hI
    · rw [updateHeartbeat_some now hs (fun h => hlen (by rw [h]; rfl))]
      have hnd' : (keysOf (hbFold st.files ids now)).Nodup := by
        rw [hbFold_keys]; exact hI.filesNodup
    -- the by-code and by-session maps are untouched; only `lastHeartbeat`
    -- fields change, so every view-consistency clause transfers
      refine ⟨hnd', hI.codesNodup, hI.sessNodup, ?_, ?_, ?_,
              hI.sessNonempty, hI.sessIdsNodup, ?_, ?_⟩
      · rintro ⟨a, b⟩ hp
        obtain ⟨f0, hm, hv⟩ := (hbFold_mem hI.filesNodup).1 hp
        have hb : b.id = f0.id := by
          rw [hv]; by_cases hmem : a ∈ ids <;> simp [hmem]
        rw [hb]
        exact hI.idEq _ hm
      · rintro ⟨a, b⟩ hp
        obtain ⟨f0, hm, hv⟩ := (hbFold_mem hI.filesNodup).1 hp
        have hb : b.code = f0.code := by
          rw [hv]; by_cases hmem : a ∈ ids <;> simp [hmem]
        rw [hb]
        exact hI.fileCode _ hm
      · intro p hp
        have h1 := hI.codeFile p hp
        rw [hbFold_lookup]
        cases hkf : lookupKey p.2 st.files with
        | none => rw [hkf] at h1; simp at h1
        | some f0 =>
          rw [hkf] at h1
          by_cases hmem : p.2 ∈ ids
          · simp only [if_pos hmem]
            exact h1
          · simp only [if_neg hmem]
            exact h1
      · intro p hp i hi
        have h1 := hI.sessOwner p hp i hi
        rw [hbFold_lookup]
        cases hkf : lookupKey i st.files with
        | none => rw [hkf] at h1; simp at h1
        | some f0 =>
          rw [hkf] at h1
          by_cases hmem : i ∈ ids
          · simp only [if_pos hmem]
            exact h1
          · simp only [if_neg hmem]
            exact h1
      · rintro ⟨a, b⟩ hp
        obtain ⟨f0, hm, hv⟩ := (hbFold_mem hI.filesNodup).1 hp
        have hb : b.sessionId = f0.sessionId := by
          rw [hv]; by_cases hmem : a ∈ ids <;> simp [hmem]
        rw [show ((a, b) : String × StoredFile).2.sessionId = f0.sessionId from hb]
        exact hI.fileSess _ hm

/-- Inserting a fresh record consistently into all three views preserves
the invariant (the abstract content of `storeFile`). -/
theorem insert_inv {st : Storage} (hI : RegistryInv st)
    {id code sessionId : String} (F : StoredFile)
    (hid : lookupKey id st.files = none)
    (hcode : lookupKey code st.codeToFileId = none)
    (hFid : F.id = id) (hFcode : F.code = code) (hFsess : F.sessionId = sessionId) :
    RegistryInv
      { files := mapSet id F st.files,
        codeToFileId := mapSet code id st.codeToFileId,
        sessionToFileIds := mapSet sessionId
          (setAdd ((lookupKey sessionId st.sessionToFileIds).getD []) id)
          st.sessionToFileIds } := by
  have hnotin : ∀ i : String, lookupKey i st.files ≠ none → i ≠ id := by
    intro i hi he
    exact hi (he ▸ hid)
  refine ⟨nodup_keysOf_mapSet hI.filesNodup, nodup_keysOf_mapSet hI.codesNodup,
          nodup_keysOf_mapSet hI.sessNodup, ?_, ?_, ?_, ?_, ?_, ?_, ?_⟩
  · intro p hp
    rcases mem_mapSet hI.filesNodup hp with h | ⟨hpm, _⟩
    · rw [h]; exact hFid
    · exact hI.idEq p hpm
  · intro p hp
    rcases mem_mapSet hI.filesNodup hp with h | ⟨hpm, _⟩
    · rw [h, show ((id, F) : String × StoredFile).2.code = code from hFcode,
        lookupKey_mapSet_self]
    · have h1 := hI.fileCode p hpm
      have hne : p.2.code ≠ code := by
        intro he
        rw [he, hcode] at h1
        exact Option.noConfusion h1
      rw [lookupKey_mapSet_ne hne]
      exact h1
  · intro p hp
    rcases mem_mapSet hI.codesNodup hp with h | ⟨hpm, hpne⟩
    · rw [h, show ((code, id) : String × String).2 = id from rfl,
        lookupKey_mapSet_self]
      simp only [Option.map_some']
      rw [hFcode]
    · have h1 := hI.codeFile p hpm
      have hne : p.2 ≠ id := by
        intro he
        rw [he, hid] at h1
        simp at h1
      rw [lookupKey_mapSet_ne hne]
      exact h1
  · intro p hp
    rcases mem_mapSet hI.sessNodup hp with h | ⟨hpm, _⟩
    · rw [h]
      exact setAdd_ne_nil _ _
    · exact hI.sessNonempty p hpm
  · intro p hp
    rcases mem_mapSet hI.sessNodup hp with h | ⟨hpm, _⟩
    · rw [h]
      apply nodup_setAdd
      cases hc : lookupKey sessionId st.sessionToFileIds with
      | none => simp
      | some ids0 =>
        simp only [Option.getD_some]
        exact hI.sessIdsNodup _ (lookupKey_mem hc)
    · exact hI.sessIdsNodup p hpm
  · intro p hp i hi
    rcases mem_mapSet hI.sessNodup hp with h | ⟨hpm, hpne⟩
    · rw [h] at hi ⊢
      rcases mem_setAdd.1 hi with hic | rfl
      · obtain ⟨ids0, hids0, himem⟩ := getD_mem_cases hic
        have h1 := hI.sessOwner _ (lookupKey_mem hids0) i himem
        have hine : i ≠ id := hnotin i (by
          intro hn
          rw [hn] at h1
          simp at h1)
        rw [lookupKey_mapSet_ne hine]
        exact h1
      · rw [lookupKey_mapSet_self]
        simp only [Option.map_some']
        rw [hFsess]
    · have h1 := hI.sessOwner p hpm i hi
      have hine : i ≠ id := by
        intro he
        rw [he, hid] at h1
        simp at h1
      rw [lookupKey_mapSet_ne hine]
      exact h1
  · intro p hp
    rcases mem_mapSet hI.filesNodup hp with h | ⟨hpm, hpne⟩
    · rw [h, show ((id, F) : String × StoredFile).2.sessionId = sessionId from hFsess,
        lookupKey_mapSet_self]
      simp only [Option.getD_some]
      exact self_mem_setAdd _ _
    · have h1 := hI.fileSess p hpm
      by_cases hps : p.2.sessionId = sessionId
      · rw [hps] at h1 ⊢
        rw [lookupKey_mapSet_self]
        simp only [Option.getD_some]
        exact mem_setAdd.2 (Or.inl h1)
      · rw [lookupKey_mapSet_ne hps]
        exact h1

theorem storeFile_inv {st : Storage} (hI : RegistryInv st)
    {id code : String} (filename originalName mimeType : String)
    (data : List Nat) (uploaderIp sessionId : String) (now : Nat)
    (hid : lookupKey id st.files = none)
    (hcode : lookupKey code st.codeToFileId = none) :
    RegistryInv (storeFile st id code filename originalName mimeType data
      uploaderIp sessionId now).2 :=
  insert_inv hI _ hid hcode rfl rfl rfl

theorem delFold_shift (ids : List String) :
    ∀ (st : Storage) (n : Nat),
      ids.foldl (fun acc fileId =>
        let d := deleteFile acc.2 fileId
        (if d.1 then acc.1 + 1 else acc.1, d.2)) (n, st) =
      (n + (delFold st ids).1, (delFold st ids).2) := by
  induction ids with
  | nil => intro st n; simp [delFold]
  | cons i rest ih =>
    intro st n
    rw [show (delFold st (i :: rest)) =
      rest.foldl (fun acc fileId =>
        let d := deleteFile acc.2 fileId
        (if d.1 then acc.1 + 1 else acc.1, d.2))
        (if (deleteFile st i).1 then 1 else 0, (deleteFile st i).2) from by
        simp only [delFold, List.foldl_cons]]
    rw [List.foldl_cons]
    show rest.foldl _ (if (deleteFile st i).1 then n + 1 else n, (deleteFile st i).2) = _
    rw [ih ((deleteFile st i).2) (if (deleteFile st i).1 then n + 1 else n),
        ih ((deleteFile st i).2) (if (deleteFile st i).1 then 1 else 0)]
    cases (deleteFile st i).1 <;> simp [Nat.add_comm, Nat.add_assoc, Nat.add_left_comm]

theorem delFold_cons (st : Storage) (i : String) (rest : List String) :
    delFold st (i :: rest) =
      ((if (deleteFile st i).1 then 1 else 0) + (delFold (deleteFile st i).2 rest).1,
       (delFold (deleteFile st i).2 rest).2) := by
  rw [show (delFold st (i :: rest)) =
    rest.foldl (fun acc fileId =>
      let d := deleteFile acc.2 fileId
      (if d.1 then acc.1 + 1 else acc.1, d.2))
      (if (deleteFile st i).1 then 1 else 0, (deleteFile st i).2) from by
      simp only [delFold, List.foldl_cons]]
  rw [delFold_shift]

theorem delFold_cons_fst (st : Storage) (i : String) (rest : List String) :
    (delFold st (i :: rest)).1 =
      (if (deleteFile st i).1 then 1 else 0) +
        (delFold (deleteFile st i).2 rest).1 := by
  rw [delFold_cons]

theorem delFold_cons_snd (st : Storage) (i : String) (rest : List String) :
    (delFold st (i :: rest)).2 = (delFold (deleteFile st i).2 rest).2 := by
  rw [delFold_cons]

/-- Deleting a duplicate-free list of ids all owned by session `s`, when the
session's index entry is contained in that list, deletes exactly those files,
removes their codes, empties the session's index entry, and counts every
deletion. -/
theorem delFold_spec (s : String) :
    ∀ (ids : List String) (st : Storage), RegistryInv st → ids.Nodup →
    (∀ i ∈ ids, (lookupKey i st.files).map StoredFile.sessionId = some s) →
    ((lookupKey s st.sessionToFileIds).getD []) ⊆ ids →
    RegistryInv (delFold st ids).2 ∧
    (delFold st ids).1 = ids.length ∧
    (∀ k, lookupKey k (delFold st ids).2.files =
      if k ∈ ids then none else lookupKey k st.files) ∧
    (∀ c, lookupKey c st.codeToFileId = none →
      lookupKey c (delFold st ids).2.codeToFileId = none) ∧
    (∀ c fid, lookupKey c st.codeToFileId = some fid →
      lookupKey c (delFold st ids).2.codeToFileId =
        if fid ∈ ids then none else some fid) ∧
    lookupKey s (delFold st ids).2.sessionToFileIds = none := by
  intro ids
  induction ids with
  | nil =>
    intro st hI _ _ hsub
    refine ⟨hI, rfl, fun k => by simp [delFold], fun c hc => hc,
            fun c fid hc => by simp [delFold, hc], ?_⟩
    cases hs : lookupKey s st.sessionToFileIds with
    | none => simpa [delFold] using hs
    | some ids0 =>
      exfalso
      have hne := hI.sessNonempty _ (lookupKey_mem hs)
      have : ids0 ⊆ [] := by
        rw [hs] at hsub
        simpa using hsub
      exact hne (List.subset_nil.1 this)
  | cons i rest ih =>
    intro st hI hnd howned hsub
    obtain ⟨f, hf, hfs⟩ : ∃ f, lookupKey i st.files = some f ∧ f.sessionId = s := by
      have h1 := howned i (List.mem_cons_self i rest)
      cases hif : lookupKey i st.files with
      | none => rw [hif] at h1; simp at h1
      | some f =>
        rw [hif] at h1
        simp only [Option.map_some'] at h1
        exact ⟨f, rfl, Option.some.inj h1⟩
    rw [List.nodup_cons] at hnd
    have hd1 : (deleteFile st i).1 = true := by rw [deleteFile_eq_some hf]
    have hInv1 : RegistryInv (deleteFile st i).2 := deleteFile_inv hI i
    have hfiles1 : ∀ k, lookupKey k (deleteFile st i).2.files =
        if k = i then none else lookupKey k st.files :=
      deleteFile_files_lookup hI.filesNodup i
    -- the session's entry before the step
    obtain ⟨ids0, hids0, himem0⟩ : ∃ ids0,
        lookupKey s st.sessionToFileIds = some ids0 ∧ i ∈ ids0 := by
      have := hI.fileSess _ (lookupKey_mem hf)
      rw [hfs] at this
      exact getD_mem_cases this
    have hids0nd : ids0.Nodup := hI.sessIdsNodup _ (lookupKey_mem hids0)
    have hsub0 : ids0 ⊆ i :: rest := by
      rw [hids0] at hsub
      simpa using hsub
    -- hypotheses of the induction hypothesis, at the post-deletion state
    have howned1 : ∀ j ∈ rest, (lookupKey j (deleteFile st i).2.files).map
        StoredFile.sessionId = some s := by
      intro j hj
      rw [hfiles1 j, if_neg (show j ≠ i from fun he => hnd.1 (he ▸ hj))]
      exact howned j (List.mem_cons_of_mem _ hj)
    have hsub1 : ((lookupKey s (deleteFile st i).2.sessionToFileIds).getD []) ⊆ rest := by
      rw [deleteFile_eq_some hf]
      simp only [hfs, hids0]
      by_cases hlen : (removeFirst i ids0).length = 0
      · rw [if_pos hlen, lookupKey_eraseKey_self hI.sessNodup]
        simp
      · rw [if_neg hlen, lookupKey_mapSet_self]
        intro j hj
        simp only [Option.getD_some] at hj
        have hji : j ≠ i := by
          intro he
          rw [he] at hj
          exact not_mem_removeFirst hids0nd hj
        rcases List.mem_cons.1 (hsub0 (mem_removeFirst hj)) with he | hm
        · exact absurd he hji
        · exact hm
    obtain ⟨ihInv, ihCount, ihFiles, ihCodesNone, ihCodes, ihSess⟩ :=
      ih (deleteFile st i).2 hInv1 hnd.2 howned1 hsub1
    refine ⟨?_, ?_, ?_, ?_, ?_, ?_⟩
    · rw [delFold_cons_snd]; exact ihInv
    · rw [delFold_cons_fst, hd1, ihCount]
      simp [List.length_cons]
      omega
    · intro k
      rw [delFold_cons_snd, ihFiles k, hfiles1 k]
      by_cases hk1 : k ∈ rest
      · simp [hk1]
      · by_cases hk2 : k = i
        · simp [hk1, hk2]
        · simp [hk1, hk2]
    · intro c hc
      rw [delFold_cons_snd]
      exact ihCodesNone c (deleteFile_code_lookup_none i hc)
    · intro c fid hc
      rw [delFold_cons_snd]
      have hstep := deleteFile_code_lookup_some hI i hc
      by_cases hfid : fid = i
      · rw [if_pos (show fid ∈ i :: rest from hfid ▸ List.mem_cons_self i rest)]
        rw [hfid] at hstep
        rw [if_pos rfl] at hstep
        exact ihCodesNone c hstep
      · rw [if_neg hfid] at hstep
        rw [ihCodes c fid hstep]
        by_cases hr : fid ∈ rest
        · simp [hr]
        · simp [hr, hfid]
    · rw [delFold_cons_snd]
      exact ihSess

theorem deleteSession_eq_none {st : Storage} {s : String}
    (hs : lookupKey s st.sessionToFileIds = none) :
    deleteSession st s = (0, st) := by
  simp [deleteSession, hs]

/-- Full specification of `deleteSession` under the invariant: the returned
count is the size of the session's id set, the session's index entry is
gone, every owned file is removed from the file map and the by-code index,
files of other sessions are untouched, and the invariant is preserved. -/
theorem deleteSession_spec {st : Storage} (hI : RegistryInv st) (s : String) :
    RegistryInv (deleteSession st s).2 ∧
    lookupKey s (deleteSession st s).2.sessionToFileIds = none ∧
    (deleteSession st s).1 = ((lookupKey s st.sessionToFileIds).getD []).length ∧
    (∀ k f, (k, f) ∈ st.files → f.sessionId = s →
      lookupKey f.code (deleteSession st s).2.codeToFileId = none ∧
      lookupKey k (deleteSession st s).2.files = none) ∧
    (∀ k f, (k, f) ∈ st.files → f.sessionId ≠ s →
      lookupKey k (deleteSession st s).2.files = some f) := by
  cases hs : lookupKey s st.sessionToFileIds with
  | none =>
    rw [deleteSession_eq_none hs]
    refine ⟨hI, hs, rfl, ?_, ?_⟩
    · intro k f hm hfs
      exfalso
      have h1 : k ∈ (lookupKey f.sessionId st.sessionToFileIds).getD [] :=
        hI.fileSess (k, f) hm
      rw [hfs, hs] at h1
      simp at h1
    · intro k f hm _
      exact mem_lookupKey hI.filesNodup hm
  | some ids =>
    have hnd : ids.Nodup := hI.sessIdsNodup _ (lookupKey_mem hs)
    have howned : ∀ i ∈ ids,
        (lookupKey i st.files).map StoredFile.sessionId = some s :=
      fun i hi => hI.sessOwner _ (lookupKey_mem hs) i hi
    have hsub : ((lookupKey s st.sessionToFileIds).getD []) ⊆ ids := by
      rw [hs]; simp
    obtain ⟨fInv, fCount, fFiles, fCodesNone, fCodes, fSess⟩ :=
      delFold_spec s ids st hI hnd howned hsub
    have hstate : (deleteSession st s).2 = (delFold st ids).2 := by
      simp only [deleteSession, hs]
      rw [eraseKey_of_not_mem (lookupKey_eq_none.1 fSess)]
    have hcount : (deleteSession st s).1 = (delFold st ids).1 := by
      simp only [deleteSession, hs]
    refine ⟨hstate ▸ fInv, hstate ▸ fSess, ?_, ?_, ?_⟩
    · rw [hcount, fCount]
      rfl
    · intro k f hm hfs
      have hk : k ∈ ids := by
        have h1 : k ∈ (lookupKey f.sessionId st.sessionToFileIds).getD [] :=
          hI.fileSess (k, f) hm
        rw [hfs, hs] at h1
        simpa using h1
      constructor
      · rw [hstate]
        have hc := hI.fileCode _ hm
        rw [fCodes _ _ hc, if_pos hk]
      · rw [hstate, fFiles k, if_pos hk]
    · intro k f hm hfs
      have hk : k ∉ ids := by
        intro hkmem
        have h1 := howned k hkmem
        rw [mem_lookupKey hI.filesNodup hm] at h1
        simp only [Option.map_some'] at h1
        exact hfs (Option.some.inj h1)
      rw [hstate, fFiles k, if_neg hk]
      exact mem_lookupKey hI.filesNodup hm

theorem deleteSession_inv {st : Storage} (hI : RegistryInv st) (s : String) :
    RegistryInv (deleteSession st s).2 := (deleteSession_spec hI s).1

theorem cleanup_inv {st : Storage} (hI : RegistryInv st) (now timeout : Nat) :
    RegistryInv (cleanupExpiredSessions st now timeout).2 := by
  rw [cleanupExpiredSessions]
  have hgen : ∀ (entries : List (String × StoredFile)) (acc : Nat × Storage),
      RegistryInv acc.2 →
      RegistryInv (entries.foldl (fun (acc : Nat × Storage) e =>
        if now - e.2.lastHeartbeat > timeout then
          (acc.1 + 1, (deleteFile acc.2 e.1).2)
        else acc) acc).2 := by
    intro entries
    induction entries with
    | nil => intro acc h; exact h
    | cons e t ih =>
      intro acc h
      rw [List.foldl_cons]
      by_cases hc : now - e.2.lastHeartbeat > timeout
      · rw [if_pos hc]
        exact ih _ (deleteFile_inv h e.1)
      · rw [if_neg hc]
        exact ih _ h
  exact hgen st.files (0, st) hI

theorem getFileByCode_inv {st : Storage} (hI : RegistryInv st)
    (code : String) (now timeout : Nat) :
    RegistryInv (getFileByCode st code now timeout).2 := by
  cases h : getFileByCodeRaw st code with
  | none =>
    simp only [getFileByCode, h]
    exact hI
  | some file =>
    simp only [getFileByCode, h]
    by_cases hc : now - file.lastHeartbeat > timeout
    · rw [if_pos hc]
      exact deleteFile_inv hI file.id
    · rw [if_neg hc]
      exact hI

/-! ### Lemmas about the rate limiter -/

theorem recordUpload_fresh {store : RateLimitStore} {ip : String}
    (code : String) (now windowMs : Nat) (hs : lookupKey ip store = none) :
    recordUpload store ip code now windowMs =
      mapSet ip { count := 1, firstUploadAt := now, uploads := [code] } store := by
  simp [recordUpload, hs]

theorem recordUpload_within {store : RateLimitStore} {ip : String}
    {e : RateLimitEntry} (code : String) {now windowMs : Nat}
    (hs : lookupKey ip store = some e) (h : now - e.firstUploadAt ≤ windowMs) :
    recordUpload store ip code now windowMs =
      mapSet ip { count := e.count + 1, firstUploadAt := e.firstUploadAt,
                  uploads := e.uploads ++ [code] } store := by
  simp only [recordUpload, hs, if_neg (Nat.not_lt.2 h)]

theorem recordFold (ip : String) (windowMs : Nat) :
    ∀ (tcs : List (Nat × String)) (store : RateLimitStore) (e : RateLimitEntry),
    lookupKey ip store = some e →
    (∀ p ∈ tcs, p.1 - e.firstUploadAt ≤ windowMs) →
    lookupKey ip (recordN store ip tcs windowMs) =
      some { count := e.count + tcs.length, firstUploadAt := e.firstUploadAt,
             uploads := e.uploads ++ tcs.map Prod.snd } := by
  intro tcs
  induction tcs with
  | nil =>
    intro store e hs _
    rw [show recordN store ip [] windowMs = store from rfl, hs]
    cases e
    simp
  | cons p rest ih =>
    intro store e hs htime
    rw [show recordN store ip (p :: rest) windowMs =
      recordN (recordUpload store ip p.2 p.1 windowMs) ip rest windowMs from rfl]
    rw [recordUpload_within p.2 hs (htime p (List.mem_cons_self _ _))]
    have h1 := ih (mapSet ip ⟨e.count + 1, e.firstUploadAt, e.uploads ++ [p.2]⟩ store)
      ⟨e.count + 1, e.firstUploadAt, e.uploads ++ [p.2]⟩
      lookupKey_mapSet_self
      (fun q hq => htime q (List.mem_cons_of_mem _ hq))
    rw [h1]
    simp [List.append_assoc, Nat.add_assoc, Nat.add_comm]
    omega

theorem recordN_other (ip : String) (windowMs : Nat) (tcs : List (Nat × String))
    (store : RateLimitStore) {ip₂ : String} (hne : ip₂ ≠ ip) :
    lookupKey ip₂ (recordN store ip tcs windowMs) = lookupKey ip₂ store := by
  induction tcs generalizing store with
  | nil => rfl
  | cons p rest ih =>
    rw [show recordN store ip (p :: rest) windowMs =
      recordN (recordUpload store ip p.2 p.1 windowMs) ip rest windowMs from rfl]
    rw [ih]
    rw [recordUpload]
    cases lookupKey ip store with
    | none => exact lookupKey_mapSet_ne hne
    | some e =>
      by_cases h : p.1 - e.firstUploadAt > windowMs
      · simp only [if_pos h]
        exact lookupKey_mapSet_ne hne
      · simp only [if_neg h]
        exact lookupKey_mapSet_ne hne

theorem recordN_from_empty {store : RateLimitStore} {ip : String}
    {windowMs : Nat} {t0 : Nat} (c0 : String) {rest : List (Nat × String)}
    (hs : lookupKey ip store = none)
    (hrest : ∀ p ∈ rest, p.1 - t0 ≤ windowMs) :
    lookupKey ip (recordN store ip ((t0, c0) :: rest) windowMs) =
      some { count := ((t0, c0) :: rest).length, firstUploadAt := t0,
             uploads := ((t0, c0) :: rest).map Prod.snd } := by
  rw [show recordN store ip ((t0, c0) :: rest) windowMs =
    recordN (recordUpload store ip c0 t0 windowMs) ip rest windowMs from rfl]
  rw [recordUpload_fresh c0 t0 windowMs hs]
  have h1 := recordFold ip windowMs rest
    (mapSet ip { count := 1, firstUploadAt := t0, uploads := [c0] } store)
    { count := 1, firstUploadAt := t0, uploads := [c0] }
    lookupKey_mapSet_self hrest
  rw [h1]
  simp [Nat.add_comm]

/-! ### Lemmas about `generateCode` -/

theorem codeChar_mem (r : Nat) : codeChar r ∈ CODE_CHARS := by
  have hb : ∀ m, m < 32 → CODE_CHARS.getD m 'A' ∈ CODE_CHARS := by decide
  exact hb (r % 32) (Nat.mod_lt r (by omega))

theorem candidate_length (rs : Nat → Nat) (k : Nat) :
    (candidate rs k).length = 4 := rfl

theorem candidate_chars (rs : Nat → Nat) (k : Nat) :
    ∀ ch ∈ (candidate rs k).data, ch ∈ CODE_CHARS := by
  intro ch hch
  rw [show (candidate rs k).data =
    [codeChar (rs (4 * k)), codeChar (rs (4 * k + 1)),
     codeChar (rs (4 * k + 2)), codeChar (rs (4 * k + 3))] from rfl] at hch
  simp only [List.mem_cons, List.not_mem_nil, or_false] at hch
  rcases hch with h | h | h | h
  · exact h ▸ codeChar_mem _
  · exact h ▸ codeChar_mem _
  · exact h ▸ codeChar_mem _
  · exact h ▸ codeChar_mem _

theorem generateCodeAux_some (st : Storage) (rs : Nat → Nat) :
    ∀ (fuel attempts : Nat) (c : String),
    generateCodeAux st rs attempts fuel = some c →
    ∃ k, attempts ≤ k ∧ c = candidate rs k ∧
      lookupKey c st.codeToFileId = none := by
  intro fuel
  induction fuel with
  | zero => intro attempts c h; exact absurd h (by simp [generateCodeAux])
  | succ f ih =>
    intro attempts c h
    rw [show generateCodeAux st rs attempts (f + 1) =
      (if attempts + 1 ≥ 100 then none
       else if (lookupKey (candidate rs attempts) st.codeToFileId).isSome then
         generateCodeAux st rs (attempts + 1) f
       else some (candidate rs attempts)) from rfl] at h
    by_cases h1 : attempts + 1 ≥ 100
    · rw [if_pos h1] at h
      exact absurd h (by simp)
    · rw [if_neg h1] at h
      by_cases h2 : (lookupKey (candidate rs attempts) st.codeToFileId).isSome
      · rw [if_pos h2] at h
        obtain ⟨k, hk1, hk2, hk3⟩ := ih (attempts + 1) c h
        exact ⟨k, by omega, hk2, hk3⟩
      · rw [if_neg h2] at h
        have hcc : c = candidate rs attempts := (Option.some.inj h).symm
        subst hcc
        refine ⟨attempts, le_refl _, rfl, ?_⟩
        cases hl : lookupKey (candidate rs attempts) st.codeToFileId with
        | none => rfl
        | some v => rw [hl] at h2; simp at h2

theorem generateCodeAux_none_iff (st : Storage) (rs : Nat → Nat) :
    ∀ (fuel attempts : Nat), 100 ≤ attempts + fuel →
    (generateCodeAux st rs attempts fuel = none ↔
      ∀ k, attempts ≤ k → k < 99 →
        (lookupKey (candidate rs k) st.codeToFileId).isSome = true) := by
  intro fuel
  induction fuel with
  | zero =>
    intro attempts h
    constructor
    · intro _ k hk1 hk2
      omega
    · intro _
      rfl
  | succ f ih =>
    intro attempts h
    rw [show generateCodeAux st rs attempts (f + 1) =
      (if attempts + 1 ≥ 100 then none
       else if (lookupKey (candidate rs attempts) st.codeToFileId).isSome then
         generateCodeAux st rs (attempts + 1) f
       else some (candidate rs attempts)) from rfl]
    by_cases h1 : attempts + 1 ≥ 100
    · rw [if_pos h1]
      constructor
      · intro _ k hk1 hk2
        omega
      · intro _
        rfl
    · rw [if_neg h1]
      by_cases h2 : (lookupKey (candidate rs attempts) st.codeToFileId).isSome
      · rw [if_pos h2, ih (attempts + 1) (by omega)]
        constructor
        · intro hall k hk1 hk2
          by_cases hk : k = attempts
          · rw [hk]
            exact h2
          · exact hall k (by omega) hk2
        · intro hall k hk1 hk2
          exact hall k (by omega) hk2
      · rw [if_neg h2]
        constructor
        · intro hc
          exact absurd hc (by simp)
        · intro hall
          exact absurd (hall attempts (le_refl _) (by omega)) h2

/-! ### The claims -/

/-- C1: `getFileByCode` applied to a stored object's code — in any letter
case and with surrounding whitespace, i.e. any string normalizing to the
stored code — returns the object while `now - lastHeartbeat` is within the
session timeout; once the staleness exceeds the timeout it deletes the
object from the file map, the by-code index and the by-session index and
returns `none`; and `getFileByCode` never returns an object whose heartbeat
staleness exceeds the timeout. -/
theorem claim1_resolve_spec :
    (∀ (st : Storage) (c : String) (now timeout : Nat) (g : StoredFile),
      (getFileByCode st c now timeout).1 = some g →
        now - g.lastHeartbeat ≤ timeout) ∧
    (∀ (st : Storage), RegistryInv st →
      ∀ (c fid : String) (f : StoredFile) (now timeout : Nat),
      lookupKey (normalizeCode c) st.codeToFileId = some fid →
      lookupKey fid st.files = some f →
      ((now - f.lastHeartbeat ≤ timeout →
          getFileByCode st c now timeout = (some f, st)) ∧
       (now - f.lastHeartbeat > timeout →
          (getFileByCode st c now timeout).1 = none ∧
          lookupKey fid (getFileByCode st c now timeout).2.files = none ∧
          lookupKey f.code (getFileByCode st c now timeout).2.codeToFileId = none ∧
          (∀ ids, lookupKey f.sessionId
              (getFileByCode st c now timeout).2.sessionToFileIds = some ids →
            fid ∉ ids)))) := by
  constructor
  · intro st c now timeout g h
    cases hraw : getFileByCodeRaw st c with
    | none => simp [getFileByCode, hraw] at h
    | some file =>
      simp only [getFileByCode, hraw] at h
      by_cases hc : now - file.lastHeartbeat > timeout
      · rw [if_pos hc] at h
        exact absurd h (by simp)
      · rw [if_neg hc] at h
        have hg : file = g := Option.some.inj h
        exact hg ▸ Nat.not_lt.1 hc
  · intro st hI c fid f now timeout hc hfile
    have hraw : getFileByCodeRaw st c = some f := by
      simp only [getFileByCodeRaw, hc, hfile]
    have hid : f.id = fid := hI.idEq (fid, f) (lookupKey_mem hfile)
    constructor
    · intro h
      simp only [getFileByCode, hraw, if_neg (Nat.not_lt.2 h)]
    · intro h
      have hstate : getFileByCode st c now timeout =
          (none, (deleteFile st fid).2) := by
        simp only [getFileByCode, hraw, if_pos h, hid]
      rw [hstate]
      refine ⟨rfl, ?_, ?_, ?_⟩
      · rw [deleteFile_files_lookup hI.filesNodup fid fid, if_pos rfl]
      · rw [deleteFile_code_lookup_some hI fid
          (hI.fileCode (fid, f) (lookupKey_mem hfile)), if_pos rfl]
      · intro ids hids
        exact deleteFile_sess_not_mem hI hids

/-- Witness for C1 at a concrete registry: a lower-case, whitespace-padded
lookup succeeds within the timeout; a stale lookup deletes and fails. -/
theorem claim1_witness :
    (getFileByCode demoSt "  ab2c " 50000 60000).1 = some demoFile ∧
    (getFileByCode demoSt "AB2C" 70000 60000).1 = none ∧
    lookupKey "f1" (getFileByCode demoSt "AB2C" 70000 60000).2.files = none := by
  have hI : RegistryInv demoSt :=
    ⟨by decide, by decide, by decide, by decide, by decide, by decide,
     by decide, by decide, by decide, by decide⟩
  have h1 := claim1_resolve_spec.2 demoSt hI "  ab2c " "f1" demoFile 50000 60000
    (by decide) (by decide)
  have h2 := claim1_resolve_spec.2 demoSt hI "AB2C" "f1" demoFile 70000 60000
    (by decide) (by decide)
  refine ⟨?_, (h2.2 (by decide)).1, (h2.2 (by decide)).2.1⟩
  rw [h1.1 (by decide)]

/-- C2: under the view-consistency invariant, every indexed code resolves
to exactly one live object whose `code` field equals it (so no two live
objects share a code), every session entry is a non-empty set of ids of
live objects owned by that session, and the invariant is preserved by all
six registry operations (`storeFile` with a fresh id and a fresh code, as
produced by `generateCode`); `deleteSession` leaves no entry behind. -/
theorem claim2_views_consistent (st : Storage) (hI : RegistryInv st) :
    (∀ p ∈ st.files, ∀ q ∈ st.files, p.2.code = q.2.code → p = q) ∧
    (∀ p ∈ st.codeToFileId,
      (lookupKey p.2 st.files).map StoredFile.code = some p.1) ∧
    (∀ p ∈ st.sessionToFileIds, p.2 ≠ [] ∧
      ∀ i ∈ p.2, (lookupKey i st.files).map StoredFile.sessionId = some p.1) ∧
    (∀ (id code filename originalName mimeType : String) (data : List Nat)
       (uploaderIp sessionId : String) (now : Nat),
       lookupKey id st.files = none → lookupKey code st.codeToFileId = none →
       RegistryInv (storeFile st id code filename originalName mimeType data
         uploaderIp sessionId now).2) ∧
    (∀ c now timeout, RegistryInv (getFileByCode st c now timeout).2) ∧
    (∀ s now, RegistryInv (updateHeartbeat st s now).2) ∧
    (∀ fid, RegistryInv (deleteFile st fid).2) ∧
    (∀ s, RegistryInv (deleteSession st s).2 ∧
      lookupKey s (deleteSession st s).2.sessionToFileIds = none) ∧
    (∀ now timeout, RegistryInv (cleanupExpiredSessions st now timeout).2) :=
  ⟨fun _ hp _ hq hcq => hI.code_unique hp hq hcq,
   hI.codeFile,
   fun p hp => ⟨hI.sessNonempty p hp, hI.sessOwner p hp⟩,
   fun _ _ _ _ _ _ _ _ _ hid hcode => storeFile_inv hI _ _ _ _ _ _ _ hid hcode,
   fun c now timeout => getFileByCode_inv hI c now timeout,
   fun s now => updateHeartbeat_inv hI s now,
   fun fid => deleteFile_inv hI fid,
   fun s => ⟨(deleteSession_spec hI s).1, (deleteSession_spec hI s).2.1⟩,
   fun now timeout => cleanup_inv hI now timeout⟩

/-- Witness for C2 at a concrete registry. -/
theorem claim2_witness :
    RegistryInv (deleteFile demoSt "f1").2 ∧
    RegistryInv (updateHeartbeat demoSt "sessA" 99999).2 ∧
    RegistryInv (storeFile demoSt "f2" "QRST" "b" "b" "t" [1] "5.6.7.8"
      "sessB" 2000).2 := by
  have hI : RegistryInv demoSt :=
    ⟨by decide, by decide, by decide, by decide, by decide, by decide,
     by decide, by decide, by decide, by decide⟩
  have h := claim2_views_consistent demoSt hI
  exact ⟨h.2.2.2.2.2.2.1 "f1", h.2.2.2.2.2.1 "sessA" 99999,
    h.2.2.2.1 "f2" "QRST" "b" "b" "t" [1] "5.6.7.8" "sessB" 2000
      (by decide) (by decide)⟩

/-- C3 (code bug): `storeFile` performs no concurrent-session-cap check at
all.  With the routes' default cap of 30 distinct live sessions already
reached, a call for a fresh 31st session is not rejected: it stores and
returns the new object, and the session count grows to 31.  (The repo's
upload route even catches a capacity error message that this `storeFile`
can never throw, and its debug route reads a `maxConcurrentSessions`
statistic this module never produces.) -/
theorem claim3_no_capacity_check :
    cap30St.sessionToFileIds.length = 30 ∧
    lookupKey "sNEW" cap30St.sessionToFileIds = none ∧
    (storeFile cap30St "fNEW" "ZZZZ" "n" "n" "t" [] "9.9.9.9" "sNEW"
      5).2.sessionToFileIds.length = 31 ∧
    lookupKey "sNEW" (storeFile cap30St "fNEW" "ZZZZ" "n" "n" "t" []
      "9.9.9.9" "sNEW" 5).2.sessionToFileIds = some ["fNEW"] ∧
    lookupKey "fNEW" (storeFile cap30St "fNEW" "ZZZZ" "n" "n" "t" []
      "9.9.9.9" "sNEW" 5).2.files =
      some (storeFile cap30St "fNEW" "ZZZZ" "n" "n" "t" [] "9.9.9.9"
        "sNEW" 5).1 := by
  refine ⟨by decide, by decide, by decide, by decide, by decide⟩

theorem listGetD_mem {α : Type} : ∀ (l : List α) (n : Nat) (d : α),
    n < l.length → l.getD n d ∈ l := by
  intro l
  induction l with
  | nil => intro n d h; simp at h
  | cons a t ih =>
    intro n d h
    cases n with
    | zero => exact List.mem_cons_self _ _
    | succ m =>
      rw [show (a :: t).getD (m + 1) d = t.getD m d from rfl]
      exact List.mem_cons_of_mem _ (ih m d (Nat.lt_of_succ_lt_succ h))

/-- C4: for an IP with no live window, recording exactly
`N = MAX_UPLOADS_PER_IP` uploads within one window leaves every one of the
`N` accepting checks allowed; the `(N+1)`-th check in the same window
returns `allowed = false`, `remaining = 0` and
`resetAt = firstUploadAt + windowMs`; and once `now - firstUploadAt`
exceeds the window duration the check answers with the full quota again. -/
theorem claim4_rate_quota (store : RateLimitStore) (ip : String)
    (maxUploads windowMs t0 : Nat) (c0 : String) (rest : List (Nat × String))
    (hs : lookupKey ip store = none)
    (hlen : ((t0, c0) :: rest).length = maxUploads)
    (hrest : ∀ p ∈ rest, p.1 - t0 ≤ windowMs) :
    (∀ j, j < maxUploads →
      ((checkRateLimit (recordN store ip (((t0, c0) :: rest).take j) windowMs)
        ip ((((t0, c0) :: rest).getD j (0, "")).1) maxUploads
        windowMs).1).allowed = true) ∧
    (∀ now, now - t0 ≤ windowMs →
      (checkRateLimit (recordN store ip ((t0, c0) :: rest) windowMs) ip now
          maxUploads windowMs).1 =
        { allowed := false, remaining := 0, resetAt := t0 + windowMs,
          message := some "Rate limit exceeded. Please try again later." }) ∧
    (∀ now, now - t0 > windowMs →
      (checkRateLimit (recordN store ip ((t0, c0) :: rest) windowMs) ip now
          maxUploads windowMs).1 =
        { allowed := true, remaining := maxUploads, resetAt := now + windowMs,
          message := none }) := by
  have hfull : lookupKey ip (recordN store ip ((t0, c0) :: rest) windowMs) =
      some { count := maxUploads, firstUploadAt := t0,
             uploads := ((t0, c0) :: rest).map Prod.snd } := by
    have h1 := recordN_from_empty c0 hs hrest
    rw [hlen] at h1
    exact h1
  refine ⟨?_, ?_, ?_⟩
  · intro j hj
    cases j with
    | zero =>
      rw [show ((t0, c0) :: rest).take 0 = [] from rfl,
          show recordN store ip [] windowMs = store from rfl]
      simp [checkRateLimit, hs]
    | succ jj =>
      have hjr : jj < rest.length := by
        simp only [List.length_cons] at hlen
        omega
      rw [List.take_succ_cons]
      have htake : ∀ p ∈ rest.take jj, p.1 - t0 ≤ windowMs :=
        fun p hp => hrest p (List.take_subset jj rest hp)
      have hpref := recordN_from_empty c0 hs htake
      have hplen : ((t0, c0) :: rest.take jj).length = jj + 1 := by
        simp [List.length_take, Nat.min_eq_left (Nat.le_of_lt hjr)]
      rw [hplen] at hpref
      have htj : (((t0, c0) :: rest).getD (jj + 1) (0, "")).1 - t0 ≤ windowMs := by
        rw [show ((t0, c0) :: rest).getD (jj + 1) (0, "") =
          rest.getD jj (0, "") from rfl]
        exact hrest _ (listGetD_mem rest jj (0, "") hjr)
      simp only [checkRateLimit, hpref]
      rw [if_neg (Nat.not_lt.2 htj), if_pos (Nat.sub_pos_of_lt hj)]
  · intro now hnow
    simp only [checkRateLimit, hfull]
    rw [if_neg (Nat.not_lt.2 hnow),
        if_neg (show ¬(0 < maxUploads - maxUploads) from by simp)]
  · intro now hnow
    simp only [checkRateLimit, hfull]
    rw [if_pos hnow]

/-- Witness for C4 with the default configuration (3 uploads per
3600000 ms window): three uploads from one IP at 1000, 1500 and 2000 ms. -/
theorem claim4_witness :
    ((checkRateLimit (recordN [] "3.3.3.3"
        (List.take 1 [(1000, "AAAA"), (1500, "BBBB")]) 3600000) "3.3.3.3"
        1500 3 3600000).1).allowed = true ∧
    (checkRateLimit (recordN [] "3.3.3.3"
        [(1000, "AAAA"), (1500, "BBBB"), (2000, "CCCC")] 3600000) "3.3.3.3"
        2500 3 3600000).1 =
      { allowed := false, remaining := 0, resetAt := 3601000,
        message := some "Rate limit exceeded. Please try again later." } ∧
    (checkRateLimit (recordN [] "3.3.3.3"
        [(1000, "AAAA"), (1500, "BBBB"), (2000, "CCCC")] 3600000) "3.3.3.3"
        3700001 3 3600000).1 =
      { allowed := true, remaining := 3, resetAt := 7300001,
        message := none } := by
  have h2 := claim4_rate_quota [] "3.3.3.3" 3 3600000 1000 "AAAA"
    [(1500, "BBBB"), (2000, "CCCC")] (by decide) (by decide) (by decide)
  have h1 := claim4_rate_quota [] "3.3.3.3" 2 3600000 1000 "AAAA"
    [(1500, "BBBB")] (by decide) (by decide) (by decide)
  refine ⟨?_, ?_, ?_⟩
  · have := h1.1 1 (by decide)
    simpa using this
  · have := h2.2.1 2500 (by decide)
    simpa using this
  · have := h2.2.2 3700001 (by decide)
    simpa using this

/-- Two tokens with equal signed content and equal signature are equal. -/
theorem JwtToken.content_sig_eq {t u : JwtToken}
    (hc : tokenContent t = tokenContent u) (hs : t.sig = u.sig) : t = u := by
  obtain ⟨a, i, su, pl, ia, ex, sg⟩ := t
  obtain ⟨a2, i2, su2, pl2, ia2, ex2, sg2⟩ := u
  simp only [tokenContent, JwtContent.mk.injEq] at hc
  obtain ⟨h1, h2, h3, h4, h5, h6⟩ := hc
  simp only at hs
  subst h1
  subst h2
  subst h3
  subst h4
  subst h5
  subst h6
  rw [hs]

/-- C5: verifying a freshly signed token before the one-hour expiry returns
the payload unchanged plus the added `iat`/`exp` claims; at or after the
expiry horizon verification returns `none`; altering any field of a signed
token while keeping its signature, or altering the signature itself, makes
verification return `none` (in the ideal-MAC model of HMAC-SHA256). -/
theorem claim5_token_roundtrip (secret : String) (p : JWTPayload)
    (t0 : Nat) :
    (∀ now, now < t0 + 3600 →
      verifyToken secret (signToken secret p t0) now =
        some { toJWTPayload := p, iat := t0, exp := t0 + 3600 }) ∧
    (∀ now, t0 + 3600 ≤ now →
      verifyToken secret (signToken secret p t0) now = none) ∧
    (∀ t : JwtToken, t ≠ signToken secret p t0 →
      t.sig = (signToken secret p t0).sig →
      ∀ m, verifyToken secret t m = none) ∧
    (∀ sg, sg ≠ (signToken secret p t0).sig → ∀ m,
      verifyToken secret { signToken secret p t0 with sig := sg } m = none) := by
  refine ⟨?_, ?_, ?_, ?_⟩
  · intro now hnow
    simp [verifyToken, signToken, tokenContent, hmacHS256, Nat.not_le.2 hnow]
  · intro now hnow
    simp [verifyToken, signToken, tokenContent, hmacHS256, hnow]
  · intro t hne hsig m
    have hbad : t.sig ≠ hmacHS256 secret (tokenContent t) := by
      intro hgood
      apply hne
      apply JwtToken.content_sig_eq ?_ hsig
      have h1 : hmacHS256 secret (tokenContent t) =
          hmacHS256 secret (tokenContent (signToken secret p t0)) := by
        rw [← hgood, hsig]
        rfl
      exact congrArg Prod.snd h1
    unfold verifyToken
    rw [if_pos hbad]
  · intro sg hsg m
    have hbad : ({ signToken secret p t0 with sig := sg } : JwtToken).sig ≠
        hmacHS256 secret
          (tokenContent { signToken secret p t0 with sig := sg }) := by
      intro hgood
      exact hsg ((show sg = hmacHS256 secret
        (tokenContent { signToken secret p t0 with sig := sg })
          from hgood).trans (by rfl))
    unfold verifyToken
    rw [if_pos hbad]

/-- Witness for C5 at a concrete payload and secret. -/
theorem claim5_witness :
    verifyToken "k" (signToken "k" pDemo 100) 200 =
      some { toJWTPayload := pDemo, iat := 100, exp := 3700 } ∧
    verifyToken "k" (signToken "k" pDemo 100) 3700 = none ∧
    verifyToken "k"
      { signToken "k" pDemo 100 with
          payload := { pDemo with fileName := "x" } } 200 = none := by
  have h := claim5_token_roundtrip "k" pDemo 100
  refine ⟨h.1 200 (by decide), h.2.1 3700 (by decide), ?_⟩
  exact h.2.2.1
    { signToken "k" pDemo 100 with payload := { pDemo with fileName := "x" } }
    (by decide) rfl 200

/-- C6: after `deleteSession s`, resolving any code a file of that session
carried fails (in any letter case / whitespace variant), `updateHeartbeat s`
returns `false` without touching the state, and the returned count is the
number of objects the session owned (the size of its id set). -/
theorem claim6_delete_session (st : Storage) (hI : RegistryInv st)
    (s : String) :
    (∀ k f c now timeout, (k, f) ∈ st.files → f.sessionId = s →
      normalizeCode c = f.code →
      getFileByCode (deleteSession st s).2 c now timeout =
        (none, (deleteSession st s).2)) ∧
    (∀ now, updateHeartbeat (deleteSession st s).2 s now =
      (false, (deleteSession st s).2)) ∧
    (deleteSession st s).1 =
      ((lookupKey s st.sessionToFileIds).getD []).length := by
  obtain ⟨hInv, hSess, hCount, hOwned, _⟩ := deleteSession_spec hI s
  refine ⟨?_, ?_, hCount⟩
  · intro k f c now timeout hm hfs hnorm
    have hcode := (hOwned k f hm hfs).1
    have hraw : getFileByCodeRaw (deleteSession st s).2 c = none := by
      rw [getFileByCodeRaw, hnorm, hcode]
    rw [getFileByCode, hraw]
  · intro now
    exact updateHeartbeat_none hSess

/-- Witness for C6 at a concrete registry. -/
theorem claim6_witness :
    getFileByCode (deleteSession demoSt "sessA").2 "ab2c" 2000 60000 =
      (none, (deleteSession demoSt "sessA").2) ∧
    updateHeartbeat (deleteSession demoSt "sessA").2 "sessA" 2000 =
      (false, (deleteSession demoSt "sessA").2) ∧
    (deleteSession demoSt "sessA").1 = 1 := by
  have hI : RegistryInv demoSt :=
    ⟨by decide, by decide, by decide, by decide, by decide, by decide,
     by decide, by decide, by decide, by decide⟩
  have h := claim6_delete_session demoSt hI "sessA"
  exact ⟨h.1 "f1" demoFile "ab2c" 2000 60000 (by decide) (by decide)
    (by decide), h.2.1 2000, h.2.2⟩

/-- The value returned by `checkRateLimit`, as a function of the looked-up
entry only (the store component is dropped). -/
theorem checkRateLimit_val (store : RateLimitStore) (ip : String)
    (now maxUploads windowMs : Nat) :
    (checkRateLimit store ip now maxUploads windowMs).1 =
      match lookupKey ip store with
      | none => { allowed := true, remaining := maxUploads,
                  resetAt := now + windowMs, message := none }
      | some entry =>
        if now - entry.firstUploadAt > windowMs then
          { allowed := true, remaining := maxUploads,
            resetAt := now + windowMs, message := none }
        else if maxUploads - entry.count > 0 then
          { allowed := true, remaining := maxUploads - entry.count,
            resetAt := entry.firstUploadAt + windowMs, message := none }
        else
          { allowed := false, remaining := 0,
            resetAt := entry.firstUploadAt + windowMs,
            message := some "Rate limit exceeded. Please try again later." } := by
  cases hs : lookupKey ip store with
  | none => simp [checkRateLimit, hs]
  | some entry =>
    simp only [checkRateLimit, hs]
    by_cases h3 : now - entry.firstUploadAt > windowMs
    · rw [if_pos h3, if_pos h3]
    · rw [if_neg h3, if_neg h3]
      by_cases h4 : maxUploads - entry.count > 0
      · rw [if_pos h4, if_pos h4]
      · rw [if_neg h4, if_neg h4]

/-- C7 counterexample: `checkRateLimit` is not read-only — when the
checked IP's window has expired it deletes that entry from the store. -/
theorem claim7_counterexample :
    (checkRateLimit [("1.1.1.1", ⟨1, 0, ["AAAA"]⟩)] "1.1.1.1" 3600001 3
        3600000).2 ≠ [("1.1.1.1", ⟨1, 0, ["AAAA"]⟩)] := by
  decide

/-- C7 as amended: two consecutive `checkRateLimit` calls at one instant
return the same result and the second is a no-op on the store; a check
leaves the store unchanged whenever the checked IP has no entry or its
entry is still within the window; the only mutation a check can perform is
deleting the checked IP's expired entry (the lazy window reset) —
`recordUpload` remains the only operation that creates or updates entries. -/
theorem claim7_check_effect (store : RateLimitStore) (ip : String)
    (now maxUploads windowMs : Nat) (hnd : (keysOf store).Nodup) :
    (checkRateLimit (checkRateLimit store ip now maxUploads windowMs).2 ip now
        maxUploads windowMs).1 =
      (checkRateLimit store ip now maxUploads windowMs).1 ∧
    (checkRateLimit (checkRateLimit store ip now maxUploads windowMs).2 ip now
        maxUploads windowMs).2 =
      (checkRateLimit store ip now maxUploads windowMs).2 ∧
    (lookupKey ip store = none →
      (checkRateLimit store ip now maxUploads windowMs).2 = store) ∧
    (∀ e, lookupKey ip store = some e → now - e.firstUploadAt ≤ windowMs →
      (checkRateLimit store ip now maxUploads windowMs).2 = store) ∧
    ((checkRateLimit store ip now maxUploads windowMs).2 = store ∨
      (checkRateLimit store ip now maxUploads windowMs).2 = eraseKey ip store) := by
  cases hs : lookupKey ip store with
  | none =>
    have h1 : checkRateLimit store ip now maxUploads windowMs =
        ({ allowed := true, remaining := maxUploads,
           resetAt := now + windowMs, message := none }, store) := by
      simp only [checkRateLimit, hs]
    rw [h1]
    exact ⟨by rw [h1], by rw [h1], fun _ => rfl,
      fun e he => absurd he (by simp), Or.inl rfl⟩
  | some e =>
    by_cases hw : now - e.firstUploadAt > windowMs
    · have h1 : checkRateLimit store ip now maxUploads windowMs =
          ({ allowed := true, remaining := maxUploads,
             resetAt := now + windowMs, message := none },
           eraseKey ip store) := by
        simp only [checkRateLimit, hs, if_pos hw]
      have h2 : lookupKey ip (eraseKey ip store) = none :=
        lookupKey_eraseKey_self hnd
      have h3 : checkRateLimit (eraseKey ip store) ip now maxUploads windowMs =
          ({ allowed := true, remaining := maxUploads,
             resetAt := now + windowMs, message := none },
           eraseKey ip store) := by
        simp only [checkRateLimit, h2]
      rw [h1]
      refine ⟨by rw [h3], by rw [h3], ?_, ?_, Or.inr rfl⟩
      · intro hc
        exact absurd hc (by simp)
      · intro e2 he2 hwin
        have he3 : e = e2 := Option.some.inj he2
        rw [← he3] at hwin
        exact absurd hwin (by omega)
    · have h1 : (checkRateLimit store ip now maxUploads windowMs).2 = store := by
        simp only [checkRateLimit, hs, if_neg hw]
        by_cases hr : 0 < maxUploads - e.count
        · rw [if_pos hr]
        · rw [if_neg hr]
      refine ⟨?_, ?_, fun _ => h1, fun _ _ _ => h1, Or.inl h1⟩
      · rw [h1]
      · rw [h1]
        exact h1

/-- Witness for C7's amended statement at a concrete store. -/
theorem claim7_witness :
    (checkRateLimit (checkRateLimit [("1.1.1.1", ⟨1, 0, ["AAAA"]⟩)]
        "1.1.1.1" 3600001 3 3600000).2 "1.1.1.1" 3600001 3 3600000).1 =
      (checkRateLimit [("1.1.1.1", ⟨1, 0, ["AAAA"]⟩)] "1.1.1.1" 3600001 3
        3600000).1 ∧
    (checkRateLimit [("1.1.1.1", ⟨1, 0, ["AAAA"]⟩)] "1.1.1.1" 3600001 3
        3600000).2 =
      eraseKey "1.1.1.1" [("1.1.1.1", ⟨1, 0, ["AAAA"]⟩)] := by
  have h := claim7_check_effect [("1.1.1.1", ⟨1, 0, ["AAAA"]⟩)] "1.1.1.1"
    3600001 3 3600000 (by decide)
  refine ⟨h.1, ?_⟩
  rcases h.2.2.2.2 with h5 | h5
  · exact absurd h5 (by decide)
  · exact h5

/-- C8: `removeUploadFromTracking` never changes an entry's `count`, so a
subsequent `checkRateLimit` — for any IP — returns exactly the same
`allowed`/`remaining`/`resetAt` values as before the removal: deleting an
object never refunds quota within the current window. -/
theorem claim8_no_refund (store : RateLimitStore) (ip code ip2 : String)
    (now maxUploads windowMs : Nat) :
    (lookupKey ip2 (removeUploadFromTracking store ip code)).map
        RateLimitEntry.count =
      (lookupKey ip2 store).map RateLimitEntry.count ∧
    (checkRateLimit (removeUploadFromTracking store ip code) ip2 now
        maxUploads windowMs).1 =
      (checkRateLimit store ip2 now maxUploads windowMs).1 := by
  cases hs : lookupKey ip store with
  | none =>
    rw [show removeUploadFromTracking store ip code = store from by
      simp [removeUploadFromTracking, hs]]
    exact ⟨rfl, rfl⟩
  | some e =>
    by_cases hmem : code ∈ e.uploads
    · have h1 : removeUploadFromTracking store ip code =
          mapSet ip { e with uploads := removeFirst code e.uploads } store := by
        simp [removeUploadFromTracking, hs, hmem]
      rw [h1]
      by_cases hip : ip2 = ip
      · subst hip
        have h2 : lookupKey ip2 (mapSet ip2
            { e with uploads := removeFirst code e.uploads } store) =
            some { e with uploads := removeFirst code e.uploads } :=
          lookupKey_mapSet_self
        refine ⟨?_, ?_⟩
        · rw [h2, hs]
          rfl
        · rw [checkRateLimit_val, checkRateLimit_val, h2, hs]
      · have h2 : lookupKey ip2 (mapSet ip
            { e with uploads := removeFirst code e.uploads } store) =
            lookupKey ip2 store := lookupKey_mapSet_ne hip
        refine ⟨by rw [h2], ?_⟩
        rw [checkRateLimit_val, checkRateLimit_val, h2]
    · rw [show removeUploadFromTracking store ip code = store from by
        simp [removeUploadFromTracking, hs, hmem]]
      exact ⟨rfl, rfl⟩

/-- C9: a successful `generateCode` returns a 4-character string over the
32-symbol alphabet `ABCDEFGHJKLMNPQRSTUVWXYZ23456789` that is absent from
the live by-code index, retrying on collisions; it fails (the
"Unable to generate unique code" throw, modelled as `none`) exactly when
every candidate the 100-attempt bound lets it test — the first 99 — is
already taken, rather than looping forever.  The function receives no
authority to modify the registry: it only reads the by-code index and
returns the code, so it never reserves or inserts anything itself. -/
theorem claim9_generate_code (st : Storage) (rs : Nat → Nat) :
    (∀ c, generateCode st rs = some c →
      c.length = 4 ∧ (∀ ch ∈ c.data, ch ∈ CODE_CHARS) ∧
      lookupKey c st.codeToFileId = none) ∧
    (generateCode st rs = none ↔
      ∀ k, k < 99 →
        (lookupKey (candidate rs k) st.codeToFileId).isSome = true) := by
  constructor
  · intro c h
    obtain ⟨k, _, hc, hfree⟩ := generateCodeAux_some st rs 100 0 c h
    subst hc
    exact ⟨candidate_length rs k, candidate_chars rs k, hfree⟩
  · rw [show generateCode st rs = generateCodeAux st rs 0 100 from rfl,
        generateCodeAux_none_iff st rs 100 0 (by omega)]
    constructor
    · intro h k hk
      exact h k (Nat.zero_le k) hk
    · intro h k _ hk
      exact h k hk

/-- Witness for C9: with a colliding stream generation fails; with a fresh
stream it returns a free 4-character alphabet code. -/
theorem claim9_witness :
    generateCode stW (fun _ => 0) = none ∧
    ("ABCD".length = 4 ∧ (∀ ch ∈ "ABCD".data, ch ∈ CODE_CHARS) ∧
      lookupKey "ABCD" demoSt.codeToFileId = none) := by
  refine ⟨?_, ?_⟩
  · exact (claim9_generate_code stW (fun _ => 0)).2.mpr (by decide)
  · exact (claim9_generate_code demoSt (fun n => n)).1 "ABCD" (by decide)

/-- C10: `updateHeartbeat` performs no staleness check.  For any session
with a (necessarily non-empty) entry in the by-session index — with no
constraint whatsoever on how stale the previous heartbeat is — it returns
`true` and stamps `lastHeartbeat := now` on every owned object, after
which the object resolves again at any instant within one timeout of the
new heartbeat: an over-stale object that neither resolve nor the sweep has
deleted yet is revived. -/
theorem claim10_heartbeat_revives (st : Storage) (hI : RegistryInv st)
    (s : String) (ids : List String) (now : Nat)
    (hs : lookupKey s st.sessionToFileIds = some ids) :
    (updateHeartbeat st s now).1 = true ∧
    (∀ i ∈ ids, (lookupKey i (updateHeartbeat st s now).2.files).map
        StoredFile.lastHeartbeat = some now) ∧
    (∀ k f, (k, f) ∈ st.files → f.sessionId = s →
      ∀ c now2 timeout, normalizeCode c = f.code → now2 - now ≤ timeout →
        (getFileByCode (updateHeartbeat st s now).2 c now2 timeout).1 =
          some { f with lastHeartbeat := now }) := by
  have hne : ids ≠ [] := hI.sessNonempty _ (lookupKey_mem hs)
  have hupd := updateHeartbeat_some now hs hne
  refine ⟨by rw [hupd], ?_, ?_⟩
  · intro i hi
    have h1 := hI.sessOwner _ (lookupKey_mem hs) i hi
    cases hif : lookupKey i st.files with
    | none => rw [hif] at h1; simp at h1
    | some fi =>
      rw [hupd]
      rw [show ((true, { st with files := hbFold st.files ids now }) :
        Bool × Storage).2.files = hbFold st.files ids now from rfl]
      rw [hbFold_lookup, hif]
      simp [hi]
  · intro k f hm hfs c now2 timeout hnorm hfresh
    have hk : k ∈ ids := by
      have h1 : k ∈ (lookupKey f.sessionId st.sessionToFileIds).getD [] :=
        hI.fileSess (k, f) hm
      rw [hfs, hs] at h1
      simpa using h1
    have hcode : lookupKey f.code st.codeToFileId = some k :=
      hI.fileCode (k, f) hm
    have hfiles : lookupKey k (updateHeartbeat st s now).2.files =
        some { f with lastHeartbeat := now } := by
      rw [hupd]
      rw [show ((true, { st with files := hbFold st.files ids now }) :
        Bool × Storage).2.files = hbFold st.files ids now from rfl]
      rw [hbFold_lookup, mem_lookupKey hI.filesNodup hm]
      simp [hk]
    have hraw : getFileByCodeRaw (updateHeartbeat st s now).2 c =
        some { f with lastHeartbeat := now } := by
      rw [getFileByCodeRaw, hnorm]
      rw [show (updateHeartbeat st s now).2.codeToFileId = st.codeToFileId
        from by rw [hupd]]
      rw [hcode]
      simp [hfiles]
    rw [getFileByCode, hraw]
    simp [Nat.not_lt.2 hfresh]

/-- Witness for C10: the demo object's heartbeat is 499000 ms stale (far
past the 60000 ms timeout), yet the heartbeat succeeds and the object
resolves again. -/
theorem claim10_witness :
    (updateHeartbeat demoSt "sessA" 500000).1 = true ∧
    (getFileByCode (updateHeartbeat demoSt "sessA" 500000).2 "ab2c" 500100
        60000).1 = some { demoFile with lastHeartbeat := 500000 } := by
  have hI : RegistryInv demoSt :=
    ⟨by decide, by decide, by decide, by decide, by decide, by decide,
     by decide, by decide, by decide, by decide⟩
  have h := claim10_heartbeat_revives demoSt hI "sessA" ["f1"] 500000
    (by decide)
  exact ⟨h.1, h.2.2 "f1" demoFile (by decide) (by decide) "ab2c" 500100
    60000 (by decide) (by decide)⟩
